import Mathlib

/-!
Verification development for the widgets-tk repository, centred on the
tree-select subsystem (src/treeselect/treeselect.py) and the background
Tk server (src/tkserver.py).

The tkinter/ttk widget layer is external to the repository.  Its relevant
observable state -- the set of Treeview rows, each carrying an item id
(iid), a text, values, a tag tuple, an open flag, and an ordered list of
child rows -- is embedded as a rose tree of rows (`Row` below).  The
`SelectTree` operations of the source are translated over that state.

Conventions of the embedding:
* Python `None` on the tri-state check field becomes `Option Bool`
  (`none` = mixed / unset).
* Python tag tuples are stored as `List String`.  The source converts
  them to a Python `set` before editing; set iteration order is
  unspecified in Python, so the embedding fixes the deterministic
  canonical order "remove the first matching element, append new
  elements at the end".  All theorems about tags are stated through
  membership, never through positions, except where the source itself
  passes a tuple through unchanged.
* Lookups that raise KeyError/TclError in the source are embedded as
  Option-returning functions, or as total functions whose theorems carry
  the hypothesis that the lookup succeeds.
* Regular-expression matching (re.search) is external; the search engine
  is parameterised by a predicate `String → Bool` standing for the
  compiled pattern.
-/

namespace WidgetsTk

/-! ## Tag constants (class TagsConfig, treeselect.py lines 35-47) -/

namespace TagsConfig

def t_entry : String := "t-entry"
def t_sector : String := "t-sector"
def t_top_sector : String := "t-sector-top"
def t_sub_sector : String := "t-sector-sub"
def c_check_entry : String := "c-check"
def c_uncheck_entry : String := "c-uncheck"
def c_check_sector : String := "c-check-sector"
def c_uncheck_sector : String := "c-uncheck-sector"
def c_ccstate_sector : String := "c-ccstate-sector"
def m_match_entry : String := "m-1-entry"
def m_match_sector : String := "m-1-sector"
def m_hint_sector : String := "m-2-sector"
def m_match_and_hint_sector : String := "m-3-sector"

end TagsConfig

/-! ## TreeNode (treeselect.py lines 103-346)

A `TreeNode` carries label, values (opaque in the source, embedded as a
string), children, iid, tri-state checked, opened, tags, the compiled
iid path and the iid separator.  The mutable `parent` attribute of the
source is not a field: it exists only on objects that went through
`compile`, and the one read of it (`load`, line 485/544) is embedded
where it happens. -/

inductive TreeNode : Type where
  | mk (label : String) (values : String) (iid : String)
       (checked : Option Bool) (opened : Bool) (tags : List String)
       (iidPath : String) (iidSep : String) (children : List TreeNode)
  deriving Repr

namespace TreeNode

def label : TreeNode → String | .mk l _ _ _ _ _ _ _ _ => l
def values : TreeNode → String | .mk _ v _ _ _ _ _ _ _ => v
def iid : TreeNode → String | .mk _ _ i _ _ _ _ _ _ => i
def checked : TreeNode → Option Bool | .mk _ _ _ c _ _ _ _ _ => c
def opened : TreeNode → Bool | .mk _ _ _ _ o _ _ _ _ => o
def tags : TreeNode → List String | .mk _ _ _ _ _ t _ _ _ => t
def iidPath : TreeNode → String | .mk _ _ _ _ _ _ p _ _ => p
def iidSep : TreeNode → String | .mk _ _ _ _ _ _ _ s _ => s
def children : TreeNode → List TreeNode | .mk _ _ _ _ _ _ _ _ cs => cs

/-- Constructor mirroring `TreeNode.__init__`: iid defaults to the label
when not given (`self.iid = iid or label`; the embedding takes the
resolved iid), checked defaults to `none`, opened to `false`, tags to
`[]`, iid_path to `""`, iid_sep to `"."`. -/
def node (label : String) (values : String) (children : List TreeNode)
    (iid : String) (checked : Option Bool) (opened : Bool)
    (tags : List String) (iidSep : String) (iidPath : String) : TreeNode :=
  .mk label values iid checked opened tags iidPath iidSep children

/-- A plain node as the constructor defaults build it: iid falls back to
the label (`self.iid = iid or label`), checked unset, closed, no tags,
separator ".", empty iid path. -/
def plain (label : String) (values : String)
    (children : List TreeNode) : TreeNode :=
  node label values children label none false [] "." ""

/-- A plain node with an explicit initial checked state. -/
def plainChk (label : String) (values : String) (checked : Option Bool)
    (children : List TreeNode) : TreeNode :=
  node label values children label checked false [] "." ""

/-- A plain node with explicit caller tags. -/
def plainTags (label : String) (values : String) (tags : List String)
    (children : List TreeNode) : TreeNode :=
  node label values children label none false tags "." ""

/-- Root wrapper `TreeNode.ROOT` (lines 237-240): label "", values "",
iid "" (from `iid or label`), empty separator, empty iid path. -/
def ROOT (children : List TreeNode) : TreeNode :=
  node "" "" children "" none false [] "" ""

/-! ### compile (lines 242-262)

`make(node)` walks the children in order; for each child it assigns the
iid path, inherits the parent check state when the child state is unset,
adds `child.checked or False` to the `checks` set *before* recursing,
then unions the recursive result.  The Python value `checks` is a
`set[bool]`; it is embedded as the pair (hasFalse, hasTrue).  After the
loop: two elements -> mixed, one element -> that element, zero elements
and unset -> False, otherwise unchanged. -/

mutual

def compileGo (newPath : String) (newChecked : Option Bool) :
    TreeNode → TreeNode × (Bool × Bool)
  | .mk label values iid _ opened tags _ iidSep children =>
    let r := compileChildren newPath iidSep newChecked children
    let hasF := r.2.1
    let hasT := r.2.2
    let nodeChecked : Option Bool :=
      if hasF && hasT then none
      else if hasT then some true
      else if hasF then some false
      else if newChecked = none then some false
      else newChecked
    (.mk label values iid nodeChecked opened tags newPath iidSep r.1,
     (hasF, hasT))

def compileChildren (parentPath parentSep : String)
    (parentChecked : Option Bool) :
    List TreeNode → List TreeNode × (Bool × Bool)
  | [] => ([], (false, false))
  | c :: cs =>
    let childPath := parentPath ++ parentSep ++ c.iid
    let childChecked := if c.checked = none then parentChecked else c.checked
    let added := childChecked.getD false
    let r := compileGo childPath childChecked c
    let rest := compileChildren parentPath parentSep parentChecked cs
    (r.1 :: rest.1,
     ((!added) || r.2.1 || rest.2.1, added || r.2.2 || rest.2.2))

end

/-- `TreeNode.compile` applied at a node keeps that node's own iid path
and starts inheritance from its own checked state. -/
def compile (t : TreeNode) : TreeNode :=
  (compileGo t.iidPath t.checked t).1

mutual

/-- `TreeNode.get_children` (lines 312-326), the depth-first search of the
subtree by iid path (the node itself is never compared); KeyError is
embedded as `none`. -/
def get_children : TreeNode → String → Option TreeNode
  | .mk _ _ _ _ _ _ _ _ cs, p => getChildrenList cs p

def getChildrenList : List TreeNode → String → Option TreeNode
  | [], _ => none
  | c :: cs, p =>
    if c.iidPath = p then some c
    else
      match get_children c p with
      | some r => some r
      | none => getChildrenList cs p

end

mutual

/-- Enumerate a node and all its descendants (order: preorder). -/
def allNodes : TreeNode → List TreeNode
  | t@(.mk _ _ _ _ _ _ _ _ children) => t :: allNodesList children

def allNodesList : List TreeNode → List TreeNode
  | [] => []
  | c :: cs => allNodes c ++ allNodesList cs

end

mutual

/-- Leaves (nodes with no children) of a tree, in preorder. -/
def leaves : TreeNode → List TreeNode
  | t@(.mk _ _ _ _ _ _ _ _ children) =>
    match children with
    | [] => [t]
    | _ => leavesList children

def leavesList : List TreeNode → List TreeNode
  | [] => []
  | c :: cs => leaves c ++ leavesList cs

end

end TreeNode

/-! ## The widget row state

A `Row` is one ttk.Treeview item: iid, displayed text, values, tags,
open flag and child rows in display order.  The widget's full state is
the list of top-level rows. -/

inductive Row : Type where
  | mk (iid : String) (text : String) (values : String)
       (tags : List String) (opened : Bool) (children : List Row)
  deriving Repr

namespace Row

def iid : Row → String | .mk i _ _ _ _ _ => i
def text : Row → String | .mk _ t _ _ _ _ => t
def values : Row → String | .mk _ _ v _ _ _ => v
def tags : Row → List String | .mk _ _ _ tg _ _ => tg
def opened : Row → Bool | .mk _ _ _ _ o _ => o
def children : Row → List Row | .mk _ _ _ _ _ cs => cs

end Row

abbrev Forest := List Row

mutual

/-- First row with the given iid, searching a row and its descendants in
preorder (Treeview iids are unique, enforced by Tk at insert time). -/
def findRowIn? (iidv : String) : Row → Option Row
  | .mk i t v tg o cs =>
    if i = iidv then some (.mk i t v tg o cs) else findRow? iidv cs

/-- First row with the given iid in a forest, preorder. -/
def findRow? (iidv : String) : Forest → Option Row
  | [] => none
  | r :: rs =>
    match findRowIn? iidv r with
    | some x => some x
    | none => findRow? iidv rs

end

/-- Tags of the item with the given iid; `self.item(iid, "tags")`.  The
source raises for unknown iids; the embedding answers `[]` there and the
theorems keep lookups inside the tree. -/
def tagsAt (w : Forest) (iidv : String) : List String :=
  ((findRow? iidv w).map Row.tags).getD []

/-- Open flag of the item with the given iid. -/
def openAt (w : Forest) (iidv : String) : Bool :=
  ((findRow? iidv w).map Row.opened).getD false

/-- Child iids of the item with the given iid; `self.get_children(iid)`.
The empty iid addresses the (invisible) root whose children are the
top-level rows. -/
def childrenIids (w : Forest) (iidv : String) : List String :=
  if iidv = "" then w.map Row.iid
  else ((findRow? iidv w).map (fun r => r.children.map Row.iid)).getD []

mutual

/-- Downward iid chain from a row to the descendant with the given iid
(the last element is that iid itself); `none` when absent.  The
`self.parent(iid)` walk of the source follows this chain upward. -/
def pathInRow? (iidv : String) : Row → Option (List String)
  | .mk i _ _ _ _ cs =>
    if i = iidv then some [iidv]
    else
      match pathToRow? iidv cs with
      | some p => some (i :: p)
      | none => none

def pathToRow? (iidv : String) : Forest → Option (List String)
  | [] => none
  | r :: rs =>
    match pathInRow? iidv r with
    | some p => some p
    | none => pathToRow? iidv rs

end

mutual

/-- Replace the tags of the row(s) carrying the given iid by `f` of the
current tags; `self.item(iid, tags=...)` after reading them. -/
def updTagsRow (iidv : String) (f : List String → List String) :
    Row → Row
  | .mk i t v tg o cs =>
    .mk i t v (if i = iidv then f tg else tg) o (updTagsRows iidv f cs)

def updTagsRows (iidv : String) (f : List String → List String) :
    Forest → Forest
  | [] => []
  | r :: rs => updTagsRow iidv f r :: updTagsRows iidv f rs

end

mutual

/-- All rows of a forest in preorder. -/
def preorderRow : Row → List Row
  | r@(.mk _ _ _ _ _ cs) => r :: preorderRows cs

def preorderRows : Forest → List Row
  | [] => []
  | r :: rs => preorderRow r ++ preorderRows rs

end

/-! ## Tag-tuple editing helpers (treeselect.py lines 417-446)

The source turns the stored tag tuple into a Python set, removes at most
one matching element (the for/break idiom), adds the new tag and stores
the set back as a tuple.  The embedding keeps the list order: removal
takes the first matching element, and a set-add appends at the end when
the tag is not already present. -/

/-- Python `t.startswith("c-")`: the first two code points are 'c', '-'. -/
def isCheckTag (t : String) : Bool :=
  match t.data with
  | c1 :: c2 :: _ => c1 = 'c' && c2 = '-'
  | _ => false

/-- Python `t.startswith("m-")`: the first two code points are 'm', '-'. -/
def isMatchTag (t : String) : Bool :=
  match t.data with
  | c1 :: c2 :: _ => c1 = 'm' && c2 = '-'
  | _ => false

/-- Remove the first element satisfying the test (the for/remove/break
idiom over the tag set). -/
def removeFirstWith (p : String → Bool) : List String → List String
  | [] => []
  | t :: ts => if p t then ts else t :: removeFirstWith p ts

/-- Set-add: a no-op when the tag is already present. -/
def addToSet (ts : List String) (tag : String) : List String :=
  if tag ∈ ts then ts else ts ++ [tag]

/-- `SelectTree._change_check_tag` body on the tag tuple: drop one tag
with prefix "c-", then add the new tag. -/
def changeCheckTagList (ts : List String) (tag : String) : List String :=
  addToSet (removeFirstWith isCheckTag ts) tag

/-- `SelectTree._reset_match_tag` body: drop one tag with prefix "m-". -/
def resetMatchTagList (ts : List String) : List String :=
  removeFirstWith isMatchTag ts

/-- Python `int()` on the single character `t[2]` of a match tag.  The
source raises ValueError on a non-digit; the theorems only apply this to
the digits 1-3 of the four match tags. -/
def pyDigit (c : Char) : Nat := c.toNat - 48

/-- Merge of an existing match tag `told` with a newly requested one:
`"m-%s%s" % (str(int(told[2]) | int(tnew[2])), told[3:])` (lines
438-441); the suffix of the existing tag is kept. -/
def mergeMatchTag (told tnew : String) : String :=
  "m-" ++ toString (Nat.lor (pyDigit (told.toList.getD 2 '0'))
                            (pyDigit (tnew.toList.getD 2 '0')))
       ++ String.mk (told.toList.drop 3)

/-- `SelectTree._add_match_tag` body: when a tag with prefix "m-" is
present, replace it by the merge, otherwise add the new tag. -/
def addMatchTagList (ts : List String) (tag : String) : List String :=
  match ts.find? isMatchTag with
  | some t => addToSet (removeFirstWith isMatchTag ts) (mergeMatchTag t tag)
  | none => addToSet ts tag

/-- One row's tags contain a checked tag: the test
`TagsConfig.c_check_entry in tags or TagsConfig.c_check_sector in tags`
used throughout toggle_check, get_checked and is_checked. -/
def stateChecked (ts : List String) : Bool :=
  TagsConfig.c_check_entry ∈ ts || TagsConfig.c_check_sector ∈ ts

/-! ## SelectTree state (treeselect.py lines 349-567) -/

/-- The observable state of a `SelectTree`: the widget rows plus the iid
registers and the in-memory structure.  The source attribute named
`structure` is called `struct` here (`structure` is a Lean keyword). -/
structure SelectTree where
  rows : Forest
  top_sector_iids : List String
  sub_sector_iids : List String
  entry_iids : List String
  struct : TreeNode
  deriving Repr

def SelectTree.all_sector_iids (st : SelectTree) : List String :=
  st.top_sector_iids ++ st.sub_sector_iids

/-! ### load with restructure=True (lines 458-526)

`load` resets the rows, wraps the input in `TreeNode.ROOT`, compiles it,
and builds one row per node.  The classification test
`_node.parent.parent` reads the parent pointers that `compile` has just
set along the traversal, so it is truthy exactly for nodes below the
first level; the embedding carries that depth flag. -/

mutual

def loadRowTrue (isTop : Bool) :
    TreeNode → Row × (List String × List String × List String)
  | .mk label values _ checked opened tags iidPath _ children =>
    match children with
    | [] =>
      let tags := tags ++ [TagsConfig.t_entry] ++
        [if checked.getD false then TagsConfig.c_check_entry
         else TagsConfig.c_uncheck_entry]
      (.mk iidPath label values tags opened [], ([], [], [iidPath]))
    | c :: cs =>
      let typeTag := if isTop then TagsConfig.t_top_sector
                     else TagsConfig.t_sub_sector
      let checkTag :=
        match checked with
        | none => TagsConfig.c_ccstate_sector
        | some true => TagsConfig.c_check_sector
        | some false => TagsConfig.c_uncheck_sector
      let sub := loadRowsTrue (c :: cs)
      (.mk iidPath label values (tags ++ [typeTag, checkTag]) opened sub.1,
       (if isTop then iidPath :: sub.2.1 else sub.2.1,
        if isTop then sub.2.2.1 else iidPath :: sub.2.2.1,
        sub.2.2.2))

def loadRowsTrue :
    List TreeNode → Forest × (List String × List String × List String)
  | [] => ([], ([], [], []))
  | n :: ns =>
    let r := loadRowTrue false n
    let rest := loadRowsTrue ns
    (r.1 :: rest.1,
     (r.2.1 ++ rest.2.1, r.2.2.1 ++ rest.2.2.1, r.2.2.2 ++ rest.2.2.2))

end

/-- Top level of the `make` traversal: the children of the compiled ROOT
are at depth 0 (`_node.parent.parent` is None there). -/
def loadTopRows (ns : List TreeNode) :
    Forest × (List String × List String × List String) :=
  match ns with
  | [] => ([], ([], [], []))
  | n :: ns' =>
    let r := loadRowTrue true n
    let rest := loadTopRows ns'
    (r.1 :: rest.1,
     (r.2.1 ++ rest.2.1, r.2.2.1 ++ rest.2.2.1, r.2.2.2 ++ rest.2.2.2))

/-- `SelectTree.load(structure, restructure=True)`: also the tail of
`__init__` with `_restructure` left at True. -/
def loadRestructure (struc : List TreeNode) : SelectTree :=
  let compiled := (TreeNode.ROOT struc).compile
  let r := loadTopRows compiled.children
  { rows := r.1
    top_sector_iids := r.2.1
    sub_sector_iids := r.2.2.1
    entry_iids := r.2.2.2
    struct := compiled }

/-! ### load with restructure=False (lines 528-560)

Without restructuring, `compile` is not run, so the `parent` attribute
of the incoming nodes is whatever the caller's objects carry.  Nodes
built by `TreeNode.from_treeitem`, `TreeNode.from_dict`, or the
constructor itself never receive a `parent` attribute (only `compile`
sets it), so for them `_node.parent` is the class default None and the
classification `_node.parent.parent` (line 544) raises AttributeError
as soon as a node with children is reached.  This embedding models the
load of such fresh (parent-less) structures -- exactly the structures
that `dump` and the JSON load interface produce -- with `.error ()`
standing for the AttributeError. -/

mutual

def loadFreshRow : TreeNode → Except Unit Row
  | .mk label values _ _ opened tags iidPath _ children =>
    match children with
    | [] => .ok (.mk iidPath label values tags opened [])
    | _ :: _ => .error ()

def loadFreshRows : List TreeNode → Except Unit Forest
  | [] => .ok []
  | n :: ns =>
    match loadFreshRow n with
    | .error e => .error e
    | .ok r =>
      match loadFreshRows ns with
      | .error e => .error e
      | .ok rest => .ok (r :: rest)

end

/-- `SelectTree.load(structure, restructure=False)` on fresh
(parent-less) nodes. -/
def loadFreshNoRestructure (struc : List TreeNode) :
    Except Unit SelectTree :=
  match loadFreshRows struc with
  | .error e => .error e
  | .ok rows =>
    .ok { rows := rows
          top_sector_iids := []
          sub_sector_iids := []
          entry_iids := rows.map Row.iid
          struct := TreeNode.ROOT struc }

/-! ### toggle_check (lines 769-824) -/

/-- The aggregation inside `__toggle_parents` (lines 791-798): the
Python set `states` of the children's checked-ness is represented by
its two membership facts; `all(states)` is "no child unchecked" (true
as well for an empty set), `len(states) == 1` once not all are checked
is "no child checked". -/
def aggTag (w : Forest) (parent : String) : String :=
  let cs := childrenIids w parent
  let hasChecked := cs.any (fun c => stateChecked (tagsAt w c))
  let hasUnchecked := cs.any (fun c => !(stateChecked (tagsAt w c)))
  if !hasUnchecked then TagsConfig.c_check_sector
  else if !hasChecked then TagsConfig.c_uncheck_sector
  else TagsConfig.c_ccstate_sector

/-- The upward half `__toggle_parents`: change the check tag at the
current iid; while a parent exists, aggregate the check states of the
parent's children and continue with the parent.  The source walks up
through `self.parent(_iid)`; the embedding passes the precomputed
upward chain (current iid first, top-level row last), which is exactly
what that walk traverses (Tk item ids are non-empty, so the walk stops
precisely at a top-level row). -/
def toggleParentsUp (w : Forest) (tag : String) :
    List String → Forest
  | [] => w
  | iidv :: rest =>
    let w1 := updTagsRows iidv (fun ts => changeCheckTagList ts tag) w
    match rest with
    | [] => w1
    | parent :: _ => toggleParentsUp w1 (aggTag w1 parent) rest

mutual

/-- Force the check tag of a row and all its descendants (the body of
the loop inside `__toggle_children`). -/
def forceRowAll (sectors : List String) (tagE tagS : String) : Row → Row
  | .mk i t v tg o cs =>
    .mk i t v (changeCheckTagList tg (if i ∈ sectors then tagS else tagE)) o
      (forceRowsAll sectors tagE tagS cs)

def forceRowsAll (sectors : List String) (tagE tagS : String) :
    Forest → Forest
  | [] => []
  | r :: rs =>
    forceRowAll sectors tagE tagS r :: forceRowsAll sectors tagE tagS rs

end

mutual

/-- Apply `f` to the row carrying the given iid, leaving everything else
unchanged. -/
def mapRowAt (iidv : String) (f : Row → Row) : Row → Row
  | .mk i t v tg o cs =>
    if i = iidv then f (.mk i t v tg o cs)
    else .mk i t v tg o (mapRowsAt iidv f cs)

def mapRowsAt (iidv : String) (f : Row → Row) : Forest → Forest
  | [] => []
  | r :: rs => mapRowAt iidv f r :: mapRowsAt iidv f rs

end

/-- Keep a row, force every strict descendant. -/
def forceBelow (sectors : List String) (tagE tagS : String) : Row → Row
  | .mk i t v tg o cs => .mk i t v tg o (forceRowsAll sectors tagE tagS cs)

/-- The downward half `__toggle_children`: every strict descendant of
the given iid (every row, when the iid is empty) gets the entry or
sector tag according to membership in all_sector_iids. -/
def toggleChildrenOp (w : Forest) (iidv : String) (sectors : List String)
    (tagE tagS : String) : Forest :=
  if iidv = "" then forceRowsAll sectors tagE tagS w
  else mapRowsAt iidv (forceBelow sectors tagE tagS) w

/-- `SelectTree.toggle_check(check, iid_path)`; returns the new state
and the boolean result.  For an iid that is not a row of the tree the
source raises TclError; the embedding leaves the rows unchanged there,
and the theorems restrict to existing rows. -/
def SelectTree.toggle_check (st : SelectTree) (check : Option Bool)
    (iid_path : String) : SelectTree × Bool :=
  let secs := st.all_sector_iids
  if iid_path = "" then
    let checkB :=
      match check with
      | some b => b
      | none =>
        !((childrenIids st.rows "").all
          (fun c => decide (TagsConfig.c_check_sector ∈ tagsAt st.rows c)))
    let tagE := if checkB then TagsConfig.c_check_entry
                else TagsConfig.c_uncheck_entry
    let tagS := if checkB then TagsConfig.c_check_sector
                else TagsConfig.c_uncheck_sector
    ({ st with rows := toggleChildrenOp st.rows "" secs tagE tagS }, checkB)
  else
    let isSector := iid_path ∈ secs
    let tag_check := if isSector then TagsConfig.c_check_sector
                     else TagsConfig.c_check_entry
    let tag_uncheck := if isSector then TagsConfig.c_uncheck_sector
                       else TagsConfig.c_uncheck_entry
    let checkB :=
      match check with
      | some b => b
      | none => !(decide (tag_check ∈ tagsAt st.rows iid_path))
    let tag := if checkB then tag_check else tag_uncheck
    let rows :=
      match pathToRow? iid_path st.rows with
      | some chain => toggleParentsUp st.rows tag chain.reverse
      | none => st.rows
    let tagE := if checkB then TagsConfig.c_check_entry
                else TagsConfig.c_uncheck_entry
    let tagS := if checkB then TagsConfig.c_check_sector
                else TagsConfig.c_uncheck_sector
    ({ st with rows := toggleChildrenOp rows iid_path secs tagE tagS }, checkB)

/-- `SelectTree.is_checked` (lines 857-860). -/
def SelectTree.is_checked (st : SelectTree) (iid_path : String) : Bool :=
  stateChecked (tagsAt st.rows iid_path)

/-- `SelectTree.toggle_single_check` (lines 826-836): purge all check
states, then set the one entry. -/
def SelectTree.toggle_single_check (st : SelectTree) (check : Option Bool)
    (iid_path : String) : SelectTree × Bool :=
  let checkB :=
    match check with
    | some b => b
    | none => !(st.is_checked iid_path)
  let st1 := (st.toggle_check (some false) "").1
  let st2 := (st1.toggle_check (some checkB) iid_path).1
  (st2, checkB)

/-! ### get / get_checked / dump (lines 448-456, 569-578, 838-855) -/

/-- `TreeNode.from_treeitem` (lines 215-235): find the structure node by
iid path (the node itself when the path matches, otherwise
`get_children`), and rebuild it with the widget's opened/tags and the
given check state; the new node gets the default separator ".".  A
failed lookup raises KeyError in the source; the embedding substitutes
an empty node and the theorems keep lookups successful. -/
def TreeNode.from_treeitem (root : TreeNode) (iid_path : String)
    (opened : Bool) (tags : List String) (checked : Option Bool) :
    TreeNode :=
  let tn :=
    if root.iidPath = iid_path then root
    else (root.get_children iid_path).getD (TreeNode.plain "" "" [])
  .mk tn.label tn.values tn.iid checked opened tags tn.iidPath "." tn.children

/-- `SelectTree.get` (lines 569-578): widget item plus structure node;
the check state is mixed when the ccstate tag is present, else the
presence of a check tag. -/
def SelectTree.get (st : SelectTree) (iid_path : String) : TreeNode :=
  let tags := tagsAt st.rows iid_path
  let checkedVal : Option Bool :=
    if TagsConfig.c_ccstate_sector ∈ tags then none
    else some (stateChecked tags)
  st.struct.from_treeitem iid_path (openAt st.rows iid_path) tags checkedVal

mutual

/-- One row of `get_checked` (lines 842-850): report a row carrying a
check tag (and stop), descend through a ccstate row, skip otherwise. -/
def getCheckedRow (struc : TreeNode) : Row → List TreeNode
  | .mk i _ _ tg o cs =>
    if stateChecked tg then [struc.from_treeitem i o tg (some true)]
    else if TagsConfig.c_ccstate_sector ∈ tg then getCheckedRows struc cs
    else []

def getCheckedRows (struc : TreeNode) : Forest → List TreeNode
  | [] => []
  | r :: rs => getCheckedRow struc r ++ getCheckedRows struc rs

end

/-- `SelectTree.get_checked` (lines 838-855). -/
def SelectTree.get_checked (st : SelectTree) : List TreeNode :=
  getCheckedRows st.struct st.rows

mutual

/-- The recursion `dmp` of `SelectTree.dump` (lines 448-456): rebuild
the node on each iid path via `get` and replace the children by their
dumps.  `get` locates the structure node by its iid path; with the
unique compiled paths that node is the one being visited, so the
embedding recurses structurally.  The widget item of the root path ""
answers open=0 and no tags (Tk root item defaults). -/
def dumpGo (w : Forest) : TreeNode → TreeNode
  | .mk label values iid _ _ _ iidPath _ children =>
    let tags := tagsAt w iidPath
    let checkedVal : Option Bool :=
      if TagsConfig.c_ccstate_sector ∈ tags then none
      else some (stateChecked tags)
    .mk label values iid checkedVal (openAt w iidPath) tags iidPath "."
      (dumpGos w children)

def dumpGos (w : Forest) : List TreeNode → List TreeNode
  | [] => []
  | c :: cs => dumpGo w c :: dumpGos w cs

end

/-- `SelectTree.dump()` with the default start_iid "". -/
def SelectTree.dump (st : SelectTree) : TreeNode :=
  dumpGo st.rows st.struct

/-! ## Search engine (treeselect.py lines 580-611, 758-767)

`re.search` over the row text is external; the pattern is embedded as a
predicate on strings. -/

mutual

/-- `_reset_match_tag` applied to a row and all rows below it. -/
def rmMatchRow : Row → Row
  | .mk i t v tg o cs => .mk i t v (resetMatchTagList tg) o (rmMatchRows cs)

/-- `SelectTree.remove_match_tags` from the root: every row of the
forest loses one "m-"-prefixed tag. -/
def rmMatchRows : Forest → Forest
  | [] => []
  | r :: rs => rmMatchRow r :: rmMatchRows rs

end

mutual

/-- Preorder row listing carrying each row's tags and the chain of
ancestor iids, nearest ancestor first: the order in which `_search`
visits rows, and the chain its `parentref` helper climbs. -/
def preAncRow : List String → Row → List (Row × List String)
  | anc, r@(.mk i _ _ _ _ cs) => (r, anc) :: preAncRows (i :: anc) cs

def preAncRows : List String → Forest → List (Row × List String)
  | _, [] => []
  | anc, r :: rs => preAncRow anc r ++ preAncRows anc rs

end

/-- `_add_match_tag(iid, tag)` on the widget state. -/
def addMatchTagAt (w : Forest) (iidv tag : String) : Forest :=
  updTagsRows iidv (fun ts => addMatchTagList ts tag) w

/-- The traversal body of `SelectTree.search`: visit the rows in
preorder; on a text match set the row's match tag (sector or entry by
iid registry) and a hint tag on every ancestor, and remember that a
match was seen. -/
def searchApply (secs : List String) (m : String → Bool) :
    Forest → List (Row × List String) → Forest × Bool
  | w, [] => (w, false)
  | w, (r, anc) :: rest =>
    if m r.text then
      let w1 := addMatchTagAt w r.iid
        (if r.iid ∈ secs then TagsConfig.m_match_sector
         else TagsConfig.m_match_entry)
      let w2 := anc.foldl
        (fun wacc p => addMatchTagAt wacc p TagsConfig.m_hint_sector) w1
      ((searchApply secs m w2 rest).1, true)
    else searchApply secs m w rest

/-- `SelectTree.search(pattern)` with the default parent "": clear all
match tags, then tag matches and hints; returns whether any row
matched. -/
def SelectTree.search (st : SelectTree) (m : String → Bool) :
    SelectTree × Bool :=
  let w0 := rmMatchRows st.rows
  let r := searchApply st.all_sector_iids m w0 (preAncRows [] w0)
  ({ st with rows := r.1 }, r.2)

/-- `SelectTree.remove_match_tags()` with the default parent "". -/
def SelectTree.remove_match_tags (st : SelectTree) : SelectTree :=
  { st with rows := rmMatchRows st.rows }

/-! ## Match queries (treeselect.py lines 613-713, 917-929) -/

mutual

/-- `get_matches` with the default flags (scip_hints=True,
scip_sectors=False): rows carrying an entry match, a sector match or a
combined match+hint tag, in preorder, rebuilt through `get`. -/
def getMatchesRowD (struc : TreeNode) : Row → List TreeNode
  | .mk i _ _ tg o cs =>
    (if TagsConfig.m_match_entry ∈ tg ∨ TagsConfig.m_match_sector ∈ tg
        ∨ TagsConfig.m_match_and_hint_sector ∈ tg then
      [struc.from_treeitem i o tg
        (if TagsConfig.c_ccstate_sector ∈ tg then none
         else some (stateChecked tg))]
     else []) ++ getMatchesRowsD struc cs

def getMatchesRowsD (struc : TreeNode) : Forest → List TreeNode
  | [] => []
  | r :: rs => getMatchesRowD struc r ++ getMatchesRowsD struc rs

end

/-- `SelectTree.get_matches()` with default arguments. -/
def SelectTree.get_matches (st : SelectTree) : List TreeNode :=
  getMatchesRowsD st.struct st.rows

mutual

/-- The `add` helper of `get_linear_iid_path_list`: the starting iid,
then for each child the child's iid followed by the child's own listing
-- so every row below the start appears twice in a row, exactly as the
source produces it. -/
def pyLinearAdd : Row → List String
  | .mk i _ _ _ _ cs => i :: pyLinearChildren cs

def pyLinearChildren : Forest → List String
  | [] => []
  | c :: cs => c.iid :: pyLinearAdd c ++ pyLinearChildren cs

end

/-- `SelectTree.get_linear_iid_path_list()` from the root: the `add`
listing of the invisible root minus its leading "". -/
def SelectTree.get_linear_iid_path_list (st : SelectTree) : List String :=
  pyLinearChildren st.rows

/-- Result of `get_next_match`: the source returns False (no match
anywhere), None (order exhausted without wraparound), or a TreeNode.
When the start iid does not occur in the linear list (e.g. the empty
selection), `main_list.index(start)` raises an uncaught ValueError,
embedded as `raised`. -/
inductive NextMatch where
  | noMatches
  | reachedEnd
  | found (t : TreeNode)
  | raised
  deriving Repr

/-- `SelectTree.get_next_match(start_iid_path, ...)` with the default
parent "" and scip flags.  The primary lookup
`matches.index(start_iid_path)` compares TreeNode dictionaries against
the start string, which never succeeds, so control always reaches the
ValueError branch: walk the (possibly reversed) linear iid list from
the first occurrence of the start, and return the first match found
there; when none remains, wrap to `matches[0]` if back_to_begin is set,
else return None. -/
def SelectTree.get_next_match (st : SelectTree) (start_iid_path : String)
    (reverse : Bool) (back_to_begin : Bool) : NextMatch :=
  match st.get_matches with
  | [] => .noMatches
  | m0 :: ms =>
    let mlist := if reverse then (m0 :: ms).reverse else m0 :: ms
    let mlist_iids := mlist.map TreeNode.iidPath
    let main_list0 := st.get_linear_iid_path_list
    let main_list := if reverse then main_list0.reverse else main_list0
    match main_list.findIdx? (· = start_iid_path) with
    | none => .raised
    | some idx =>
      match (main_list.drop idx).findSome?
          (fun i => (mlist_iids.findIdx? (· = i)).bind mlist.get?) with
      | some t => .found t
      | none =>
        if back_to_begin then
          match mlist.head? with
          | some t => .found t
          | none => .reachedEnd
        else .reachedEnd

/-! ## TkBgServer.open_socket (tkserver.py lines 126-144)

The OS socket layer is external: binding and listening on one candidate
address either succeeds or raises an OSError with some errno.  The
embedding takes that outcome map as a parameter.  The server state
keeps the `sock` and `server_address` attributes; a socket object is
represented by the address it was created for. -/

namespace TkServer

inductive BindOutcome where
  | ok
  | fail (errno : Nat)
  deriving Repr, DecidableEq

structure ServerState where
  sock : Option (String × Nat)
  server_address : Option (String × Nat)
  deriving Repr, DecidableEq

inductive OpenResult where
  /-- normal return after a successful bind+listen -/
  | opened (addr : String × Nat)
  /-- the for/else branch: close_socket, then raise OSError(errno=98,
  "All address already in use: ...") -/
  | exhausted
  /-- a bind error with errno other than 98 is re-raised immediately -/
  | raised (errno : Nat)
  /-- empty or None address pool: the method does nothing -/
  | noPool
  deriving Repr, DecidableEq

/-- The for-loop of `open_socket`: each iteration assigns a fresh socket
to `self.sock`, then binds and listens.  Success stores the address and
returns; errno 98 tries the next candidate; any other errno propagates.
When the loop completes, the else branch closes the socket (clearing
both attributes) and raises the address-exhausted error. -/
def openSocketGo (bindListen : String × Nat → BindOutcome) :
    ServerState → List (String × Nat) → ServerState × OpenResult
  | _, [] => ({ sock := none, server_address := none }, .exhausted)
  | st, a :: rest =>
    let st1 := { st with sock := some a }
    match bindListen a with
    | .ok => ({ st1 with server_address := some a }, .opened a)
    | .fail e =>
      if e = 98 then openSocketGo bindListen st1 rest
      else (st1, .raised e)

/-- `TkBgServer.open_socket`. -/
def open_socket (pool : List (String × Nat))
    (bindListen : String × Nat → BindOutcome) (st : ServerState) :
    ServerState × OpenResult :=
  if pool = [] then (st, .noPool)
  else openSocketGo bindListen st pool

end TkServer

/-! # Lemmas -/

/-! ## Tag-list lemmas -/

def cTagCount (ts : List String) : Nat := ts.countP isCheckTag

def mTagCount (ts : List String) : Nat := ts.countP isMatchTag

/-- A tag tuple is well formed when it carries at most one check tag and
at most one match tag. -/
def TagsOk (ts : List String) : Prop := cTagCount ts ≤ 1 ∧ mTagCount ts ≤ 1

theorem isMatchTag_not_isCheckTag {t : String} (h : isMatchTag t = true) :
    isCheckTag t = false := by
  unfold isMatchTag at h
  unfold isCheckTag
  rcases hd : t.data with _ | ⟨c1, _ | ⟨c2, rest⟩⟩ <;> rw [hd] at h <;>
    simp_all

theorem isCheckTag_not_isMatchTag {t : String} (h : isCheckTag t = true) :
    isMatchTag t = false := by
  unfold isCheckTag at h
  unfold isMatchTag
  rcases hd : t.data with _ | ⟨c1, _ | ⟨c2, rest⟩⟩ <;> rw [hd] at h <;>
    simp_all

theorem countP_removeFirstWith (p : String → Bool) (ts : List String) :
    (removeFirstWith p ts).countP p = ts.countP p - 1 := by
  induction ts with
  | nil => simp [removeFirstWith]
  | cons t ts ih =>
    by_cases h : p t
    · simp [removeFirstWith, h, List.countP_cons]
    · simp [removeFirstWith, h, List.countP_cons, ih]

theorem countP_removeFirstWith_disj (p q : String → Bool)
    (hd : ∀ t, p t = true → q t = false) (ts : List String) :
    (removeFirstWith p ts).countP q = ts.countP q := by
  induction ts with
  | nil => simp [removeFirstWith]
  | cons t ts ih =>
    by_cases h : p t
    · simp [removeFirstWith, h, List.countP_cons, hd t h]
    · simp [removeFirstWith, h, List.countP_cons, ih]

theorem removeFirstWith_eq_self {p : String → Bool} {ts : List String}
    (h : ts.countP p = 0) : removeFirstWith p ts = ts := by
  induction ts with
  | nil => rfl
  | cons t ts ih =>
    rw [List.countP_cons] at h
    have hpt : p t = false := by
      by_cases hp : p t <;> simp [hp] at h ⊢
    have h0 : ts.countP p = 0 := by omega
    simp [removeFirstWith, hpt, ih h0]

theorem mem_removeFirstWith {x : String} {p : String → Bool}
    {ts : List String} (h : x ∈ removeFirstWith p ts) : x ∈ ts := by
  induction ts with
  | nil => simp [removeFirstWith] at h
  | cons t ts ih =>
    by_cases hp : p t
    · simp [removeFirstWith, hp] at h
      exact List.mem_cons_of_mem _ h
    · simp [removeFirstWith, hp] at h
      rcases h with h | h
      · exact h ▸ List.mem_cons_self _ _
      · exact List.mem_cons_of_mem _ (ih h)

theorem countP_addToSet_le (q : String → Bool) (ts : List String)
    (t : String) : (addToSet ts t).countP q ≤ ts.countP q + 1 := by
  unfold addToSet
  by_cases h : t ∈ ts
  · simp [h]
  · simp only [h, if_false, List.countP_append]
    have h1 : List.countP q [t] ≤ 1 := by
      by_cases hq : q t <;> simp [hq]
    omega

theorem countP_addToSet_not (q : String → Bool) {ts : List String}
    {t : String} (h : q t = false) :
    (addToSet ts t).countP q = ts.countP q := by
  unfold addToSet
  by_cases hm : t ∈ ts <;>
    simp [hm, List.countP_append, List.countP_cons, h]

theorem mem_addToSet {x t : String} {ts : List String} :
    x ∈ addToSet ts t ↔ x ∈ ts ∨ x = t := by
  unfold addToSet
  by_cases h : t ∈ ts
  · simp only [h, if_true]
    constructor
    · exact fun hx => Or.inl hx
    · rintro (hx | rfl)
      · exact hx
      · exact h
  · simp [h]

theorem mem_addToSet_self (ts : List String) (t : String) :
    t ∈ addToSet ts t := mem_addToSet.mpr (Or.inr rfl)

theorem TagsOk_changeCheckTagList {ts : List String} {tag : String}
    (h : TagsOk ts) (hm : isMatchTag tag = false) :
    TagsOk (changeCheckTagList ts tag) := by
  obtain ⟨h1, h2⟩ := h
  unfold changeCheckTagList
  constructor
  · have hr := countP_removeFirstWith isCheckTag ts
    have ha := countP_addToSet_le isCheckTag
      (removeFirstWith isCheckTag ts) tag
    unfold cTagCount at *
    omega
  · have hr := countP_removeFirstWith_disj isCheckTag isMatchTag
      (fun t ht => isCheckTag_not_isMatchTag ht) ts
    have ha := @countP_addToSet_not isMatchTag
      (removeFirstWith isCheckTag ts) tag hm
    unfold mTagCount at *
    omega

theorem TagsOk_resetMatchTagList {ts : List String} (h : TagsOk ts) :
    TagsOk (resetMatchTagList ts) := by
  obtain ⟨h1, h2⟩ := h
  unfold resetMatchTagList
  constructor
  · have hr := countP_removeFirstWith_disj isMatchTag isCheckTag
      (fun t ht => isMatchTag_not_isCheckTag ht) ts
    unfold cTagCount at *
    omega
  · have hr := countP_removeFirstWith isMatchTag ts
    unfold mTagCount at *
    omega

theorem data_mergeMatchTag (a b : String) :
    (mergeMatchTag a b).data =
      'm' :: '-' :: (toString (Nat.lor (pyDigit (a.data.getD 2 '0'))
        (pyDigit (b.data.getD 2 '0')))).data ++ (a.data.drop 3) := by
  unfold mergeMatchTag
  rw [String.data_append, String.data_append]
  rfl

theorem isMatchTag_mergeMatchTag (a b : String) :
    isMatchTag (mergeMatchTag a b) = true := by
  unfold isMatchTag
  rw [data_mergeMatchTag]
  simp

theorem TagsOk_addMatchTagList {ts : List String} {tag : String}
    (h : TagsOk ts) (hc : isCheckTag tag = false) :
    TagsOk (addMatchTagList ts tag) := by
  obtain ⟨h1, h2⟩ := h
  cases hf : ts.find? isMatchTag with
  | some t =>
    have hred : addMatchTagList ts tag =
        addToSet (removeFirstWith isMatchTag ts) (mergeMatchTag t tag) := by
      unfold addMatchTagList
      rw [hf]
    rw [hred]
    constructor
    · have hr := countP_removeFirstWith_disj isMatchTag isCheckTag
        (fun t ht => isMatchTag_not_isCheckTag ht) ts
      have ha := @countP_addToSet_not isCheckTag
        (removeFirstWith isMatchTag ts) (mergeMatchTag t tag)
        (isMatchTag_not_isCheckTag (isMatchTag_mergeMatchTag t tag))
      unfold cTagCount at *
      omega
    · have hr := countP_removeFirstWith isMatchTag ts
      have ha := countP_addToSet_le isMatchTag
        (removeFirstWith isMatchTag ts) (mergeMatchTag t tag)
      have hpos : 0 < ts.countP isMatchTag := by
        have hp := List.find?_some hf
        have hmem := List.mem_of_find?_eq_some hf
        exact List.countP_pos_iff.mpr ⟨t, hmem, hp⟩
      unfold mTagCount at *
      omega
  | none =>
    have hred : addMatchTagList ts tag = addToSet ts tag := by
      unfold addMatchTagList
      rw [hf]
    rw [hred]
    have h0 : ts.countP isMatchTag = 0 := by
      rw [List.countP_eq_zero]
      intro a ha
      have := List.find?_eq_none.mp hf a ha
      simpa using this
    constructor
    · have ha := @countP_addToSet_not isCheckTag ts tag hc
      unfold cTagCount at *
      omega
    · have ha := countP_addToSet_le isMatchTag ts tag
      unfold mTagCount at *
      omega

/-! ## Skeletons

All tag-editing operations preserve the shape of the row forest (iids
and child structure).  The skeleton erases everything except iids and
structure; shape preservation is stated as skeleton equality, and the
structural observers (findRow? presence, childrenIids, pathToRow?,
preorder iids) factor through the skeleton. -/

mutual

def skelRow : Row → Row
  | .mk i _ _ _ _ cs => .mk i "" "" [] false (skelRows cs)

def skelRows : Forest → Forest
  | [] => []
  | r :: rs => skelRow r :: skelRows rs

end

mutual

theorem findRowIn_skel (j : String) :
    ∀ r : Row, findRowIn? j (skelRow r) = (findRowIn? j r).map skelRow
  | .mk i t v tg o cs => by
    by_cases h : i = j
    · simp [skelRow, findRowIn?, h]
    · simp [skelRow, findRowIn?, h, findRow_skel j cs]

theorem findRow_skel (j : String) :
    ∀ w : Forest, findRow? j (skelRows w) = (findRow? j w).map skelRow
  | [] => by simp [skelRows, findRow?]
  | r :: rs => by
    simp only [skelRows, findRow?, findRowIn_skel j r]
    cases findRowIn? j r with
    | some x => simp
    | none => simp [findRow_skel j rs]

end

mutual

theorem pathInRow_skel (j : String) :
    ∀ r : Row, pathInRow? j (skelRow r) = pathInRow? j r
  | .mk i t v tg o cs => by
    by_cases h : i = j
    · simp [skelRow, pathInRow?, h]
    · simp [skelRow, pathInRow?, h, pathToRow_skel j cs]

theorem pathToRow_skel (j : String) :
    ∀ w : Forest, pathToRow? j (skelRows w) = pathToRow? j w
  | [] => by simp [skelRows, pathToRow?]
  | r :: rs => by
    simp only [skelRows, pathToRow?, pathInRow_skel j r]
    cases pathInRow? j r with
    | some x => simp
    | none => simp [pathToRow_skel j rs]

end

theorem skelRows_map_iid :
    ∀ w : Forest, (skelRows w).map Row.iid = w.map Row.iid
  | [] => rfl
  | r :: rs => by
    cases r with
    | mk i t v tg o cs =>
      simp [skelRows, skelRow, Row.iid, skelRows_map_iid rs]

theorem childrenIids_skel (w : Forest) (j : String) :
    childrenIids (skelRows w) j = childrenIids w j := by
  unfold childrenIids
  by_cases h : j = ""
  · simp [h, skelRows_map_iid]
  · simp only [h, if_false, findRow_skel j w]
    cases hf : findRow? j w with
    | none => rfl
    | some r =>
      cases r with
      | mk i t v tg o cs =>
        simp [skelRow, Row.children, skelRows_map_iid]

mutual

theorem preorderRow_skel_iid (r : Row) :
    (preorderRow (skelRow r)).map Row.iid = (preorderRow r).map Row.iid := by
  cases r with
  | mk i t v tg o cs =>
    simp [skelRow, preorderRow, Row.iid, preorderRows_skel_iid cs]

theorem preorderRows_skel_iid :
    ∀ w : Forest,
      (preorderRows (skelRows w)).map Row.iid =
        (preorderRows w).map Row.iid
  | [] => rfl
  | r :: rs => by
    simp [skelRows, preorderRows, preorderRow_skel_iid r,
      preorderRows_skel_iid rs]

end

/-! Skeleton invariance of each tag-editing operation. -/

mutual

theorem skelRow_updTagsRow (i : String) (f : List String → List String)
    (r : Row) : skelRow (updTagsRow i f r) = skelRow r := by
  cases r with
  | mk ri t v tg o cs =>
    simp [updTagsRow, skelRow, skelRows_updTagsRows i f cs]

theorem skelRows_updTagsRows (i : String) (f : List String → List String) :
    ∀ w : Forest, skelRows (updTagsRows i f w) = skelRows w
  | [] => rfl
  | r :: rs => by
    simp [updTagsRows, skelRows, skelRow_updTagsRow i f r,
      skelRows_updTagsRows i f rs]

end

mutual

theorem skelRow_forceRowAll (s : List String) (e t : String) (r : Row) :
    skelRow (forceRowAll s e t r) = skelRow r := by
  cases r with
  | mk ri tx v tg o cs =>
    simp [forceRowAll, skelRow, skelRows_forceRowsAll s e t cs]

theorem skelRows_forceRowsAll (s : List String) (e t : String) :
    ∀ w : Forest, skelRows (forceRowsAll s e t w) = skelRows w
  | [] => rfl
  | r :: rs => by
    simp [forceRowsAll, skelRows, skelRow_forceRowAll s e t r,
      skelRows_forceRowsAll s e t rs]

end

theorem skelRow_forceBelow (s : List String) (e t : String) (r : Row) :
    skelRow (forceBelow s e t r) = skelRow r := by
  cases r with
  | mk ri tx v tg o cs =>
    simp [forceBelow, skelRow, skelRows_forceRowsAll s e t cs]

mutual

theorem skelRow_mapRowAt (i : String) (g : Row → Row)
    (hg : ∀ r, skelRow (g r) = skelRow r) (r : Row) :
    skelRow (mapRowAt i g r) = skelRow r := by
  cases r with
  | mk ri t v tg o cs =>
    by_cases h : ri = i
    · simp [mapRowAt, h, hg]
    · simp [mapRowAt, h, skelRow, skelRows_mapRowsAt i g hg cs]

theorem skelRows_mapRowsAt (i : String) (g : Row → Row)
    (hg : ∀ r, skelRow (g r) = skelRow r) :
    ∀ w : Forest, skelRows (mapRowsAt i g w) = skelRows w
  | [] => rfl
  | r :: rs => by
    simp [mapRowsAt, skelRows, skelRow_mapRowAt i g hg r,
      skelRows_mapRowsAt i g hg rs]

end

mutual

theorem skelRow_rmMatchRow (r : Row) : skelRow (rmMatchRow r) = skelRow r := by
  cases r with
  | mk ri t v tg o cs =>
    simp [rmMatchRow, skelRow, skelRows_rmMatchRows cs]

theorem skelRows_rmMatchRows :
    ∀ w : Forest, skelRows (rmMatchRows w) = skelRows w
  | [] => rfl
  | r :: rs => by
    simp [rmMatchRows, skelRows, skelRow_rmMatchRow r,
      skelRows_rmMatchRows rs]

end

theorem skelRows_toggleChildrenOp (w : Forest) (i : String)
    (s : List String) (e t : String) :
    skelRows (toggleChildrenOp w i s e t) = skelRows w := by
  unfold toggleChildrenOp
  by_cases h : i = ""
  · simp [h, skelRows_forceRowsAll]
  · simp [h, skelRows_mapRowsAt i _ (skelRow_forceBelow s e t) w]

theorem skelRows_toggleParentsUp (tag : String) :
    ∀ (l : List String) (w : Forest),
      skelRows (toggleParentsUp w tag l) = skelRows w
  | [], w => rfl
  | i :: rest, w => by
    unfold toggleParentsUp
    cases rest with
    | nil => simp [skelRows_updTagsRows]
    | cons p rest2 =>
      simp only []
      rw [skelRows_toggleParentsUp _ (p :: rest2)]
      simp [skelRows_updTagsRows]

theorem skelRows_addMatchTagAt (w : Forest) (i tag : String) :
    skelRows (addMatchTagAt w i tag) = skelRows w := by
  unfold addMatchTagAt
  exact skelRows_updTagsRows i _ w

theorem skelRows_hintFold (tag : String) :
    ∀ (ps : List String) (w : Forest),
      skelRows (ps.foldl (fun acc p => addMatchTagAt acc p tag) w) =
        skelRows w
  | [], w => rfl
  | p :: ps, w => by
    simp only [List.foldl_cons]
    rw [skelRows_hintFold tag ps, skelRows_addMatchTagAt]

theorem skelRows_searchApply (secs : List String) (m : String → Bool) :
    ∀ (es : List (Row × List String)) (w : Forest),
      skelRows ((searchApply secs m w es).1) = skelRows w
  | [], w => rfl
  | (r, anc) :: rest, w => by
    unfold searchApply
    by_cases h : m r.text
    · simp only [h, if_true]
      rw [skelRows_searchApply secs m rest]
      rw [skelRows_hintFold, skelRows_addMatchTagAt]
    · simp only [h, if_false]
      exact skelRows_searchApply secs m rest w

/-! Transport of structural observers along skeleton equality. -/

theorem pathToRow_of_skel_eq {w w2 : Forest}
    (h : skelRows w2 = skelRows w) (j : String) :
    pathToRow? j w2 = pathToRow? j w := by
  rw [← pathToRow_skel j w2, h, pathToRow_skel j w]

theorem childrenIids_of_skel_eq {w w2 : Forest}
    (h : skelRows w2 = skelRows w) (j : String) :
    childrenIids w2 j = childrenIids w j := by
  rw [← childrenIids_skel w2 j, h, childrenIids_skel w j]

theorem preorder_iids_of_skel_eq {w w2 : Forest}
    (h : skelRows w2 = skelRows w) :
    (preorderRows w2).map Row.iid = (preorderRows w).map Row.iid := by
  rw [← preorderRows_skel_iid w2, h, preorderRows_skel_iid w]

theorem findRow_isSome_of_skel_eq {w w2 : Forest}
    (h : skelRows w2 = skelRows w) (j : String) :
    (findRow? j w2).isSome = (findRow? j w).isSome := by
  have h1 := findRow_skel j w2
  have h2 := findRow_skel j w
  rw [h] at h1
  rw [h2] at h1
  cases hf : findRow? j w2 <;> cases hg : findRow? j w <;>
    rw [hf, hg] at h1 <;> simp_all

/-! ## findRow? and tagsAt under tag updates -/

mutual

theorem findRowIn_iid (j : String) :
    ∀ {r x : Row}, findRowIn? j r = some x → x.iid = j
  | .mk i t v tg o cs, x => by
    intro h
    by_cases hij : i = j
    · simp [findRowIn?, hij] at h
      rw [← h]
      simpa [Row.iid] using hij
    · simp [findRowIn?, hij] at h
      exact findRow_iid j h

theorem findRow_iid (j : String) :
    ∀ {w : Forest} {x : Row}, findRow? j w = some x → x.iid = j
  | [], x => by intro h; simp [findRow?] at h
  | r :: rs, x => by
    intro h
    simp only [findRow?] at h
    cases hf : findRowIn? j r with
    | some y =>
      rw [hf] at h
      cases h
      exact findRowIn_iid j hf
    | none =>
      rw [hf] at h
      exact findRow_iid j h

end

mutual

theorem findRowIn_updTagsRow (j i : String) (f : List String → List String) :
    ∀ r : Row,
      findRowIn? j (updTagsRow i f r) = (findRowIn? j r).map (updTagsRow i f)
  | .mk ri t v tg o cs => by
    by_cases h : ri = j
    · simp [updTagsRow, findRowIn?, h]
    · simp [updTagsRow, findRowIn?, h, findRow_updTagsRows j i f cs]

theorem findRow_updTagsRows (j i : String) (f : List String → List String) :
    ∀ w : Forest,
      findRow? j (updTagsRows i f w) = (findRow? j w).map (updTagsRow i f)
  | [] => by simp [updTagsRows, findRow?]
  | r :: rs => by
    simp only [updTagsRows, findRow?, findRowIn_updTagsRow j i f r]
    cases findRowIn? j r with
    | some x => simp
    | none => simp [findRow_updTagsRows j i f rs]

end

theorem tags_updTagsRow (i : String) (f : List String → List String)
    (r : Row) :
    (updTagsRow i f r).tags = if r.iid = i then f r.tags else r.tags := by
  cases r with
  | mk ri t v tg o cs => simp [updTagsRow, Row.tags, Row.iid]

theorem tagsAt_updTagsRows_ne {j i : String} (hne : j ≠ i)
    (f : List String → List String) (w : Forest) :
    tagsAt (updTagsRows i f w) j = tagsAt w j := by
  unfold tagsAt
  rw [findRow_updTagsRows j i f w]
  cases hf : findRow? j w with
  | none => rfl
  | some r =>
    have hr := findRow_iid j hf
    simp [tags_updTagsRow, hr, hne]

theorem tagsAt_updTagsRows_self {i : String} {w : Forest}
    (hs : (findRow? i w).isSome) (f : List String → List String) :
    tagsAt (updTagsRows i f w) i = f (tagsAt w i) := by
  unfold tagsAt
  rw [findRow_updTagsRows i i f w]
  cases hf : findRow? i w with
  | none => rw [hf] at hs; simp at hs
  | some r =>
    have hr := findRow_iid i hf
    simp [tags_updTagsRow, hr]

/-! ## Path lemmas -/

mutual

theorem pathInRow_isSome (j : String) :
    ∀ r : Row,
      (pathInRow? j r).isSome = true ↔ j ∈ (preorderRow r).map Row.iid
  | .mk i t v tg o cs => by
    by_cases h : i = j
    · simp [pathInRow?, h, preorderRow, Row.iid]
    · simp only [pathInRow?, h, if_false, preorderRow, List.map_cons,
        List.mem_cons, Row.iid]
      cases hp : pathToRow? j cs with
      | some x =>
        have hm := (pathToRow_isSome j cs).mp (by simp [hp])
        simp [hm]
      | none =>
        have hm : j ∉ (preorderRows cs).map Row.iid := by
          intro hmem
          have := (pathToRow_isSome j cs).mpr hmem
          simp [hp] at this
        simp [h, Ne.symm h, hm]

theorem pathToRow_isSome (j : String) :
    ∀ w : Forest,
      (pathToRow? j w).isSome = true ↔ j ∈ (preorderRows w).map Row.iid
  | [] => by simp [pathToRow?, preorderRows]
  | r :: rs => by
    simp only [pathToRow?, preorderRows, List.map_append, List.mem_append]
    cases hp : pathInRow? j r with
    | some x =>
      have hm := (pathInRow_isSome j r).mp (by simp [hp])
      simp [hm]
    | none =>
      have hm : j ∉ (preorderRow r).map Row.iid := by
        intro hmem
        have := (pathInRow_isSome j r).mpr hmem
        simp [hp] at this
      simp [hm, pathToRow_isSome j rs]

end

mutual

theorem pathInRow_getLast (j : String) :
    ∀ {r : Row} {ch : List String}, pathInRow? j r = some ch →
      ch ≠ [] ∧ ch.getLast? = some j
  | .mk i t v tg o cs, ch => by
    intro h
    by_cases hij : i = j
    · simp [pathInRow?, hij] at h
      subst h
      simp
    · simp only [pathInRow?, hij, if_false] at h
      cases hp : pathToRow? j cs with
      | some p =>
        rw [hp] at h
        cases h
        obtain ⟨hne, hlast⟩ := pathToRow_getLast j hp
        refine ⟨by simp, ?_⟩
        cases p with
        | nil => exact absurd rfl hne
        | cons a as =>
          rw [List.getLast?_cons_cons]
          exact hlast
      | none => rw [hp] at h; cases h

theorem pathToRow_getLast (j : String) :
    ∀ {w : Forest} {ch : List String}, pathToRow? j w = some ch →
      ch ≠ [] ∧ ch.getLast? = some j
  | [], ch => by intro h; simp [pathToRow?] at h
  | r :: rs, ch => by
    intro h
    simp only [pathToRow?] at h
    cases hp : pathInRow? j r with
    | some p =>
      rw [hp] at h
      cases h
      exact pathInRow_getLast j hp
    | none =>
      rw [hp] at h
      exact pathToRow_getLast j h

end

mutual

theorem pathInRow_sublist (j : String) :
    ∀ {r : Row} {ch : List String}, pathInRow? j r = some ch →
      List.Sublist ch ((preorderRow r).map Row.iid)
  | .mk i t v tg o cs, ch => by
    intro h
    by_cases hij : i = j
    · subst hij
      simp [pathInRow?] at h
      subst h
      simp only [preorderRow, List.map_cons, Row.iid]
      exact (List.nil_sublist _).cons₂ _
    · simp only [pathInRow?, hij, if_false] at h
      cases hp : pathToRow? j cs with
      | some p =>
        rw [hp] at h
        cases h
        have hs := pathToRow_sublist j hp
        simp only [preorderRow, List.map_cons]
        exact hs.cons₂ _
      | none => rw [hp] at h; cases h

theorem pathToRow_sublist (j : String) :
    ∀ {w : Forest} {ch : List String}, pathToRow? j w = some ch →
      List.Sublist ch ((preorderRows w).map Row.iid)
  | [], ch => by intro h; simp [pathToRow?] at h
  | r :: rs, ch => by
    intro h
    simp only [pathToRow?] at h
    cases hp : pathInRow? j r with
    | some p =>
      rw [hp] at h
      cases h
      have hs := pathInRow_sublist j hp
      simp only [preorderRows, List.map_append]
      exact hs.trans (List.sublist_append_left _ _)
    | none =>
      rw [hp] at h
      have hs := pathToRow_sublist j h
      simp only [preorderRows, List.map_append]
      exact hs.trans (List.sublist_append_right _ _)

end

mutual

theorem findRowIn_isSome (j : String) :
    ∀ r : Row,
      (findRowIn? j r).isSome = true ↔ j ∈ (preorderRow r).map Row.iid
  | .mk i t v tg o cs => by
    by_cases h : i = j
    · simp [findRowIn?, h, preorderRow, Row.iid]
    · simp only [findRowIn?, h, if_false, preorderRow, List.map_cons,
        List.mem_cons, Row.iid]
      rw [findRow_isSome j cs]
      simp [h, Ne.symm h]

theorem findRow_isSome (j : String) :
    ∀ w : Forest,
      (findRow? j w).isSome = true ↔ j ∈ (preorderRows w).map Row.iid
  | [] => by simp [findRow?, preorderRows]
  | r :: rs => by
    simp only [findRow?, preorderRows, List.map_append, List.mem_append]
    cases hf : findRowIn? j r with
    | some x =>
      have hm := (findRowIn_isSome j r).mp (by simp [hf])
      simp [hm]
    | none =>
      have hm : j ∉ (preorderRow r).map Row.iid := by
        intro hmem
        have := (findRowIn_isSome j r).mpr hmem
        simp [hf] at this
      simp [hm, findRow_isSome j rs]

end

mutual

theorem findRowIn_mem (j : String) :
    ∀ {r x : Row}, findRowIn? j r = some x → x ∈ preorderRow r
  | .mk i t v tg o cs, x => by
    intro h
    by_cases hij : i = j
    · subst hij
      simp [findRowIn?] at h
      subst h
      simp [preorderRow]
    · simp only [findRowIn?, hij, if_false] at h
      simp only [preorderRow, List.mem_cons]
      exact Or.inr (findRow_mem j h)

theorem findRow_mem (j : String) :
    ∀ {w : Forest} {x : Row}, findRow? j w = some x → x ∈ preorderRows w
  | [], x => by intro h; simp [findRow?] at h
  | r :: rs, x => by
    intro h
    simp only [findRow?] at h
    simp only [preorderRows, List.mem_append]
    cases hf : findRowIn? j r with
    | some y =>
      rw [hf] at h
      cases h
      exact Or.inl (findRowIn_mem j hf)
    | none =>
      rw [hf] at h
      exact Or.inr (findRow_mem j h)

end

theorem top_iid_mem_preorder {w : Forest} {c : String}
    (h : c ∈ w.map Row.iid) : c ∈ (preorderRows w).map Row.iid := by
  induction w with
  | nil => simp at h
  | cons r rs ih =>
    rcases r with ⟨i, t, v, tg, o, cs⟩
    simp only [List.map_cons, List.mem_cons] at h
    simp only [preorderRows, preorderRow, List.map_append, List.mem_append,
      List.map_cons, List.mem_cons]
    rcases h with h | h
    · exact Or.inl (Or.inl h)
    · exact Or.inr (ih h)

mutual

theorem children_mem_preorderRow {c : Row} :
    ∀ {r x : Row}, x ∈ preorderRow r → c ∈ x.children →
      c ∈ preorderRow r
  | r, x => by
    intro hx hc
    rcases r with ⟨i, t, v, tg, o, cs⟩
    simp only [preorderRow, List.mem_cons] at hx ⊢
    rcases hx with rfl | hx
    · exact Or.inr (top_mem_preorderRows (by
        simpa [Row.children] using hc))
    · exact Or.inr (children_mem_preorderRows hx hc)

theorem children_mem_preorderRows {c : Row} :
    ∀ {w : Forest} {x : Row}, x ∈ preorderRows w → c ∈ x.children →
      c ∈ preorderRows w
  | [], x => by intro hx; simp [preorderRows] at hx
  | r :: rs, x => by
    intro hx hc
    simp only [preorderRows, List.mem_append] at hx ⊢
    rcases hx with hx | hx
    · exact Or.inl (children_mem_preorderRow hx hc)
    · exact Or.inr (children_mem_preorderRows hx hc)

theorem top_mem_preorderRows {c : Row} :
    ∀ {w : Forest}, c ∈ w → c ∈ preorderRows w
  | [] => by intro h; simp at h
  | r :: rs => by
    intro h
    simp only [List.mem_cons] at h
    simp only [preorderRows, List.mem_append]
    rcases h with rfl | h
    · left
      rcases c with ⟨i, t, v, tg, o, cs⟩
      simp [preorderRow]
    · exact Or.inr (top_mem_preorderRows h)

end

/-- In a forest with no duplicate iids, a top-level iid is reached by
the singleton path. -/
theorem pathToRow_top {c : String} :
    ∀ {w : Forest},
      ((preorderRows w).map Row.iid).Nodup → c ∈ w.map Row.iid →
      pathToRow? c w = some [c]
  | [] => by intro _ h; simp at h
  | r :: rs => by
    intro hnd h
    rcases hr : r with ⟨i, t, v, tg, o, cs⟩
    simp only [List.map_cons, List.mem_cons, hr, Row.iid] at h
    simp only [hr, preorderRows, preorderRow, List.map_append,
      List.map_cons, Row.iid, List.nodup_append, List.nodup_cons] at hnd
    rcases h with rfl | h
    · simp [pathToRow?, pathInRow?]
    · have hcr : c ∉ (preorderRows cs).map Row.iid := by
        intro hmem
        have hdisj := hnd.2.2
        have hc2 : c ∈ (preorderRows rs).map Row.iid :=
          top_iid_mem_preorder h
        exact hdisj (List.mem_cons_of_mem _ hmem) hc2
      have hci : c ≠ i := by
        rintro rfl
        have hdisj := hnd.2.2
        exact hdisj (List.mem_cons_self _ _) (top_iid_mem_preorder h)
      have hnone : pathInRow? c (Row.mk i t v tg o cs) = none := by
        cases hp : pathInRow? c (Row.mk i t v tg o cs) with
        | none => rfl
        | some x =>
          have := (pathInRow_isSome c (Row.mk i t v tg o cs)).mp
            (by simp [hp])
          simp only [preorderRow, List.map_cons, List.mem_cons,
            Row.iid] at this
          rcases this with h1 | h1
          · exact absurd h1 hci
          · exact absurd h1 hcr
      simp only [pathToRow?, hnone]
      exact pathToRow_top (by
        have := hnd.2.1
        exact this) h

mutual

/-- Prefix property of paths: in a duplicate-free forest, the prefix of
a path ending at an element p is the path to p. -/
theorem pathInRow_pre (j p : String) :
    ∀ {r : Row} {ch1 ch2 : List String},
      ((preorderRow r).map Row.iid).Nodup →
      pathInRow? j r = some (ch1 ++ p :: ch2) →
      pathInRow? p r = some (ch1 ++ [p])
  | .mk i t v tg o cs, ch1, ch2 => by
    intro hnd h
    by_cases hij : i = j
    · simp only [pathInRow?, if_pos hij, Option.some.injEq] at h
      subst hij
      cases ch1 with
      | nil =>
        simp only [List.nil_append, List.cons.injEq] at h
        obtain ⟨rfl, rfl⟩ := h
        simp [pathInRow?]
      | cons a l =>
        have hlen := congrArg List.length h
        simp [List.length_append] at hlen
      -- a one-element path cannot split around an interior element
    · simp only [pathInRow?, hij, if_false] at h
      cases hp : pathToRow? j cs with
      | none => rw [hp] at h; cases h
      | some sub =>
        rw [hp] at h
        simp only [Option.some.injEq] at h
        simp only [preorderRow, List.map_cons, Row.iid,
          List.nodup_cons] at hnd
        cases ch1 with
        | nil =>
          simp only [List.nil_append, List.cons.injEq] at h
          obtain ⟨rfl, rfl⟩ := h
          simp [pathInRow?]
        | cons a l =>
          simp only [List.cons_append, List.cons.injEq] at h
          obtain ⟨rfl, hsub⟩ := h
          have hrec := pathToRow_pre j p hnd.2 (hsub ▸ hp)
          have hpmem : p ∈ (preorderRows cs).map Row.iid := by
            have hs := pathToRow_sublist j hp
            refine hs.subset ?_
            rw [hsub]
            simp
          have hip : ¬(i = p) := by
            rintro rfl
            exact hnd.1 hpmem
          simp [pathInRow?, hip, hrec]

theorem pathToRow_pre (j p : String) :
    ∀ {w : Forest} {ch1 ch2 : List String},
      ((preorderRows w).map Row.iid).Nodup →
      pathToRow? j w = some (ch1 ++ p :: ch2) →
      pathToRow? p w = some (ch1 ++ [p])
  | [], ch1, ch2 => by intro _ h; simp [pathToRow?] at h
  | r :: rs, ch1, ch2 => by
    intro hnd h
    simp only [preorderRows, List.map_append, List.nodup_append] at hnd
    simp only [pathToRow?] at h ⊢
    cases hp : pathInRow? j r with
    | some x =>
      rw [hp] at h
      cases h
      have hr := pathInRow_pre j p hnd.1 hp
      rw [hr]
    | none =>
      rw [hp] at h
      have hr := pathToRow_pre j p hnd.2.1 h
      have hmem : p ∈ (preorderRows rs).map Row.iid := by
        have hs := pathToRow_sublist j h
        exact hs.subset (by simp)
      have hnone : pathInRow? p r = none := by
        cases hq : pathInRow? p r with
        | none => rfl
        | some y =>
          have := (pathInRow_isSome p r).mp (by simp [hq])
          exact absurd hmem (hnd.2.2 this)
      rw [hnone, hr]

end

theorem pathInRow_none_iff_findRowIn_none (j : String) (r : Row) :
    pathInRow? j r = none ↔ findRowIn? j r = none := by
  constructor
  · intro h
    cases hf : findRowIn? j r with
    | none => rfl
    | some x =>
      have hm := (findRowIn_isSome j r).mp (by simp [hf])
      have := (pathInRow_isSome j r).mpr hm
      simp [h] at this
  · intro h
    cases hp : pathInRow? j r with
    | none => rfl
    | some x =>
      have hm := (pathInRow_isSome j r).mp (by simp [hp])
      have := (findRowIn_isSome j r).mpr hm
      simp [h] at this

mutual

/-- Child extension of paths: in a duplicate-free forest, the path to a
direct child of the row at p is the path to p extended by the child's
iid. -/
theorem pathInRow_child (p c : String) :
    ∀ {r : Row} {chp : List String} {rp : Row},
      ((preorderRow r).map Row.iid).Nodup →
      pathInRow? p r = some chp →
      findRowIn? p r = some rp →
      c ∈ rp.children.map Row.iid →
      pathInRow? c r = some (chp ++ [c])
  | .mk i t v tg o cs, chp, rp => by
    intro hnd h hf hc
    by_cases hip : i = p
    · simp only [pathInRow?, if_pos hip, Option.some.injEq] at h
      simp only [findRowIn?, if_pos hip, Option.some.injEq] at hf
      subst hip
      subst h
      rw [← hf] at hc
      simp only [Row.children] at hc
      simp only [preorderRow, List.map_cons, Row.iid,
        List.nodup_cons] at hnd
      have hcm : c ∈ (preorderRows cs).map Row.iid := top_iid_mem_preorder hc
      have hic : ¬(i = c) := by
        rintro rfl
        exact hnd.1 hcm
      have htop := pathToRow_top hnd.2 hc
      simp [pathInRow?, hic, htop]
    · simp only [pathInRow?, hip, if_false] at h
      simp only [findRowIn?, hip, if_false] at hf
      cases hp : pathToRow? p cs with
      | none => rw [hp] at h; cases h
      | some sub =>
        rw [hp] at h
        simp only [Option.some.injEq] at h
        subst h
        simp only [preorderRow, List.map_cons, Row.iid,
          List.nodup_cons] at hnd
        have hrec := pathToRow_child p c hnd.2 hp hf hc
        have hcm : c ∈ (preorderRows cs).map Row.iid := by
          obtain ⟨cr, hcr, rfl⟩ := List.mem_map.mp hc
          have hrpmem := findRow_mem p hf
          exact List.mem_map_of_mem Row.iid
            (children_mem_preorderRows hrpmem hcr)
        have hic : ¬(i = c) := by
          rintro rfl
          exact hnd.1 hcm
        simp [pathInRow?, hic, hrec]

theorem pathToRow_child (p c : String) :
    ∀ {w : Forest} {chp : List String} {rp : Row},
      ((preorderRows w).map Row.iid).Nodup →
      pathToRow? p w = some chp →
      findRow? p w = some rp →
      c ∈ rp.children.map Row.iid →
      pathToRow? c w = some (chp ++ [c])
  | [], chp, rp => by intro _ h; simp [pathToRow?] at h
  | r :: rs, chp, rp => by
    intro hnd h hf hc
    simp only [preorderRows, List.map_append, List.nodup_append] at hnd
    simp only [pathToRow?] at h
    simp only [findRow?] at hf
    cases hp : pathInRow? p r with
    | some x =>
      rw [hp] at h
      simp only [Option.some.injEq] at h
      subst h
      cases hfin : findRowIn? p r with
      | none =>
        rw [(pathInRow_none_iff_findRowIn_none p r).mpr hfin] at hp
        cases hp
      | some y =>
        rw [hfin] at hf
        simp only [Option.some.injEq] at hf
        subst hf
        have hrow := pathInRow_child p c hnd.1 hp hfin hc
        simp [pathToRow?, hrow]
    | none =>
      rw [hp] at h
      have hfin : findRowIn? p r = none :=
        (pathInRow_none_iff_findRowIn_none p r).mp hp
      rw [hfin] at hf
      have hrec := pathToRow_child p c hnd.2.1 h hf hc
      have hcm : c ∈ (preorderRows rs).map Row.iid := by
        obtain ⟨cr, hcr, rfl⟩ := List.mem_map.mp hc
        have hrpmem := findRow_mem p hf
        exact List.mem_map_of_mem Row.iid
          (children_mem_preorderRows hrpmem hcr)
      have hnone : pathInRow? c r = none := by
        cases hq : pathInRow? c r with
        | none => rfl
        | some y =>
          have := (pathInRow_isSome c r).mp (by simp [hq])
          exact absurd hcm (hnd.2.2 this)
      simp [pathToRow?, hnone, hrec]

end

/-! ## Untouched rows -/

/-- toggleParentsUp only edits rows whose iid occurs in its chain. -/
theorem tagsAt_toggleParentsUp_not_mem {j : String} (tag : String) :
    ∀ (l : List String) (w : Forest), j ∉ l →
      tagsAt (toggleParentsUp w tag l) j = tagsAt w j
  | [], w => by intro _; rfl
  | i :: rest, w => by
    intro hj
    have hji : j ≠ i := by
      intro he
      exact hj (he ▸ List.mem_cons_self _ _)
    have hjr : j ∉ rest := fun hmem => hj (List.mem_cons_of_mem _ hmem)
    unfold toggleParentsUp
    cases rest with
    | nil => exact tagsAt_updTagsRows_ne hji _ w
    | cons pp rest2 =>
      simp only []
      rw [tagsAt_toggleParentsUp_not_mem _ (pp :: rest2) _ hjr]
      exact tagsAt_updTagsRows_ne hji _ w

mutual

/-- forceRowsAll commutes with row lookup. -/
theorem findRowIn_forceRowAll (j : String) (s : List String) (e t : String) :
    ∀ r : Row,
      findRowIn? j (forceRowAll s e t r) =
        (findRowIn? j r).map (forceRowAll s e t)
  | .mk i tx v tg o cs => by
    by_cases h : i = j
    · simp [forceRowAll, findRowIn?, h]
    · simp [forceRowAll, findRowIn?, h, findRow_forceRowsAll j s e t cs]

theorem findRow_forceRowsAll (j : String) (s : List String) (e t : String) :
    ∀ w : Forest,
      findRow? j (forceRowsAll s e t w) =
        (findRow? j w).map (forceRowAll s e t)
  | [] => by simp [forceRowsAll, findRow?]
  | r :: rs => by
    simp only [forceRowsAll, findRow?, findRowIn_forceRowAll j s e t r]
    cases findRowIn? j r with
    | some x => simp
    | none => simp [findRow_forceRowsAll j s e t rs]

end

theorem tags_forceRowAll (s : List String) (e t : String) (r : Row) :
    (forceRowAll s e t r).tags =
      changeCheckTagList r.tags (if r.iid ∈ s then t else e) := by
  cases r with
  | mk i tx v tg o cs => simp [forceRowAll, Row.tags, Row.iid]

mutual

/-- mapRowAt with forceBelow leaves the tags of a row untouched when the
row's path does not pass strictly through the target iid. -/
theorem findRowIn_mapForceBelow (t j : String) (secs : List String)
    (e s : String) :
    ∀ r : Row,
      (∀ ch, pathInRow? j r = some ch → t ∉ ch.dropLast) →
      (findRowIn? j (mapRowAt t (forceBelow secs e s) r)).map Row.tags =
        (findRowIn? j r).map Row.tags
  | .mk i tx v tg o cs => by
    intro hnb
    by_cases hit : i = t
    · subst hit
      simp only [mapRowAt, if_pos rfl]
      by_cases hij : i = j
      · simp [forceBelow, findRowIn?, hij, Row.tags]
      · have hnone : findRow? j cs = none := by
          cases hf : findRow? j cs with
          | none => rfl
          | some x =>
            have hmem := (findRow_isSome j cs).mp (by simp [hf])
            have hps := (pathToRow_isSome j cs).mpr hmem
            cases hp : pathToRow? j cs with
            | none => rw [hp] at hps; simp at hps
            | some sub =>
              have hchain :
                  pathInRow? j (Row.mk i tx v tg o cs) = some (i :: sub) := by
                simp [pathInRow?, hij, hp]
              have hsubne : sub ≠ [] := (pathToRow_getLast j hp).1
              have hnt := hnb (i :: sub) hchain
              rw [List.dropLast_cons_of_ne_nil hsubne] at hnt
              exact absurd (List.mem_cons_self _ _) hnt
        have hnone2 : findRow? j (forceRowsAll secs e s cs) = none := by
          rw [findRow_forceRowsAll j secs e s cs, hnone]
          rfl
        simp [forceBelow, findRowIn?, hij, hnone, hnone2]
    · simp only [mapRowAt, hit, if_false]
      by_cases hij : i = j
      · simp [findRowIn?, hij, Row.tags]
      · simp only [findRowIn?, hij, if_false]
        apply findRow_mapForceBelow t j secs e s cs
        intro ch hch
        have hchain :
            pathInRow? j (Row.mk i tx v tg o cs) = some (i :: ch) := by
          simp [pathInRow?, hij, hch]
        have hchne : ch ≠ [] := (pathToRow_getLast j hch).1
        have hnt := hnb (i :: ch) hchain
        rw [List.dropLast_cons_of_ne_nil hchne] at hnt
        intro hmem
        exact hnt (List.mem_cons_of_mem _ hmem)

theorem findRow_mapForceBelow (t j : String) (secs : List String)
    (e s : String) :
    ∀ w : Forest,
      (∀ ch, pathToRow? j w = some ch → t ∉ ch.dropLast) →
      (findRow? j (mapRowsAt t (forceBelow secs e s) w)).map Row.tags =
        (findRow? j w).map Row.tags
  | [] => by intro _; simp [mapRowsAt, findRow?]
  | r :: rs => by
    intro hnb
    simp only [mapRowsAt, findRow?]
    have hrow := findRowIn_mapForceBelow t j secs e s r (by
      intro ch hch
      refine hnb ch ?_
      simp [pathToRow?, hch])
    cases hf : findRowIn? j r with
    | some x =>
      rw [hf] at hrow
      cases hg : findRowIn? j (mapRowAt t (forceBelow secs e s) r) with
      | none => rw [hg] at hrow; simp at hrow
      | some y =>
        rw [hg] at hrow
        simpa using hrow
    | none =>
      rw [hf] at hrow
      cases hg : findRowIn? j (mapRowAt t (forceBelow secs e s) r) with
      | some y => rw [hg] at hrow; simp at hrow
      | none =>
        show (findRow? j (mapRowsAt t (forceBelow secs e s) rs)).map
            Row.tags = (findRow? j rs).map Row.tags
        apply findRow_mapForceBelow t j secs e s rs
        intro ch hch
        refine hnb ch ?_
        have hnone := (pathInRow_none_iff_findRowIn_none j r).mpr hf
        simp [pathToRow?, hnone, hch]

end

/-- toggleChildrenOp with a non-empty iid only edits rows strictly below
that iid. -/
theorem tagsAt_toggleChildrenOp_not_below {t j : String}
    (secs : List String) (e s : String) (hne : ¬(t = "")) (w : Forest)
    (hnb : ∀ ch, pathToRow? j w = some ch → t ∉ ch.dropLast) :
    tagsAt (toggleChildrenOp w t secs e s) j = tagsAt w j := by
  unfold toggleChildrenOp
  simp only [hne, if_false]
  unfold tagsAt
  rw [findRow_mapForceBelow t j secs e s w hnb]

/-! ## Pointwise tag-predicate preservation -/

theorem preorder_cons_left {r : Row} {rs : Forest} {x : Row}
    (h : x ∈ preorderRow r) : x ∈ preorderRows (r :: rs) := by
  simp only [preorderRows, List.mem_append]
  exact Or.inl h

theorem preorder_cons_right {r : Row} {rs : Forest} {x : Row}
    (h : x ∈ preorderRows rs) : x ∈ preorderRows (r :: rs) := by
  simp only [preorderRows, List.mem_append]
  exact Or.inr h

theorem preorder_row_self (i t v : String) (tg : List String) (o : Bool)
    (cs : Forest) :
    Row.mk i t v tg o cs ∈ preorderRow (Row.mk i t v tg o cs) := by
  simp [preorderRow]

theorem preorder_row_child {i t v : String} {tg : List String} {o : Bool}
    {cs : Forest} {x : Row} (h : x ∈ preorderRows cs) :
    x ∈ preorderRow (Row.mk i t v tg o cs) := by
  simp only [preorderRow, List.mem_cons]
  exact Or.inr h

mutual

theorem allTags_updTagsRow (P : List String → Prop) (i : String)
    (f : List String → List String) (hf : ∀ ts, P ts → P (f ts)) :
    ∀ r : Row, (∀ x ∈ preorderRow r, P x.tags) →
      ∀ x ∈ preorderRow (updTagsRow i f r), P x.tags
  | .mk ri t v tg o cs => by
    intro hall x hx
    have htg : P tg := by
      have hh := hall (Row.mk ri t v tg o cs) (preorder_row_self ri t v tg o cs)
      simpa [Row.tags] using hh
    have hcs : ∀ y ∈ preorderRows cs, P y.tags :=
      fun y hy => hall y (preorder_row_child hy)
    simp only [updTagsRow, preorderRow, List.mem_cons] at hx
    rcases hx with rfl | hx
    · by_cases h : ri = i
      · simp only [Row.tags, h, if_true]
        exact hf tg htg
      · simp only [Row.tags, h, if_false]
        exact htg
    · exact allTags_updTagsRows P i f hf cs hcs x hx

theorem allTags_updTagsRows (P : List String → Prop) (i : String)
    (f : List String → List String) (hf : ∀ ts, P ts → P (f ts)) :
    ∀ w : Forest, (∀ x ∈ preorderRows w, P x.tags) →
      ∀ x ∈ preorderRows (updTagsRows i f w), P x.tags
  | [] => by intro _ x hx; simp [updTagsRows, preorderRows] at hx
  | r :: rs => by
    intro hall x hx
    simp only [updTagsRows, preorderRows, List.mem_append] at hx
    rcases hx with hx | hx
    · exact allTags_updTagsRow P i f hf r
        (fun y hy => hall y (preorder_cons_left hy)) x hx
    · exact allTags_updTagsRows P i f hf rs
        (fun y hy => hall y (preorder_cons_right hy)) x hx

end

mutual

theorem allTags_forceRowAll (P : List String → Prop) (s : List String)
    (e t : String)
    (hf : ∀ ts, P ts →
      P (changeCheckTagList ts e) ∧ P (changeCheckTagList ts t)) :
    ∀ r : Row, (∀ x ∈ preorderRow r, P x.tags) →
      ∀ x ∈ preorderRow (forceRowAll s e t r), P x.tags
  | .mk ri tx v tg o cs => by
    intro hall x hx
    have htg : P tg := by
      have hh := hall (Row.mk ri tx v tg o cs)
        (preorder_row_self ri tx v tg o cs)
      simpa [Row.tags] using hh
    have hcs : ∀ y ∈ preorderRows cs, P y.tags :=
      fun y hy => hall y (preorder_row_child hy)
    simp only [forceRowAll, preorderRow, List.mem_cons] at hx
    rcases hx with rfl | hx
    · simp only [Row.tags]
      by_cases hmem : ri ∈ s
      · rw [if_pos hmem]
        exact (hf tg htg).2
      · rw [if_neg hmem]
        exact (hf tg htg).1
    · exact allTags_forceRowsAll P s e t hf cs hcs x hx

theorem allTags_forceRowsAll (P : List String → Prop) (s : List String)
    (e t : String)
    (hf : ∀ ts, P ts →
      P (changeCheckTagList ts e) ∧ P (changeCheckTagList ts t)) :
    ∀ w : Forest, (∀ x ∈ preorderRows w, P x.tags) →
      ∀ x ∈ preorderRows (forceRowsAll s e t w), P x.tags
  | [] => by intro _ x hx; simp [forceRowsAll, preorderRows] at hx
  | r :: rs => by
    intro hall x hx
    simp only [forceRowsAll, preorderRows, List.mem_append] at hx
    rcases hx with hx | hx
    · exact allTags_forceRowAll P s e t hf r
        (fun y hy => hall y (preorder_cons_left hy)) x hx
    · exact allTags_forceRowsAll P s e t hf rs
        (fun y hy => hall y (preorder_cons_right hy)) x hx

end

mutual

theorem allTags_mapRowAt (P : List String → Prop) (i : String)
    (g : Row → Row)
    (hg : ∀ r : Row, (∀ x ∈ preorderRow r, P x.tags) →
      ∀ x ∈ preorderRow (g r), P x.tags) :
    ∀ r : Row, (∀ x ∈ preorderRow r, P x.tags) →
      ∀ x ∈ preorderRow (mapRowAt i g r), P x.tags
  | .mk ri t v tg o cs => by
    intro hall x hx
    by_cases h : ri = i
    · subst h
      simp only [mapRowAt, if_pos rfl] at hx
      exact hg _ hall x hx
    · simp only [mapRowAt, h, if_false, preorderRow, List.mem_cons] at hx
      rcases hx with rfl | hx
      · have hh := hall (Row.mk ri t v tg o cs)
          (preorder_row_self ri t v tg o cs)
        simpa [Row.tags] using hh
      · exact allTags_mapRowsAt P i g hg cs
          (fun y hy => hall y (preorder_row_child hy)) x hx

theorem allTags_mapRowsAt (P : List String → Prop) (i : String)
    (g : Row → Row)
    (hg : ∀ r : Row, (∀ x ∈ preorderRow r, P x.tags) →
      ∀ x ∈ preorderRow (g r), P x.tags) :
    ∀ w : Forest, (∀ x ∈ preorderRows w, P x.tags) →
      ∀ x ∈ preorderRows (mapRowsAt i g w), P x.tags
  | [] => by intro _ x hx; simp [mapRowsAt, preorderRows] at hx
  | r :: rs => by
    intro hall x hx
    simp only [mapRowsAt, preorderRows, List.mem_append] at hx
    rcases hx with hx | hx
    · exact allTags_mapRowAt P i g hg r
        (fun y hy => hall y (preorder_cons_left hy)) x hx
    · exact allTags_mapRowsAt P i g hg rs
        (fun y hy => hall y (preorder_cons_right hy)) x hx

end

mutual

theorem allTags_rmMatchRow (P : List String → Prop)
    (hf : ∀ ts, P ts → P (resetMatchTagList ts)) :
    ∀ r : Row, (∀ x ∈ preorderRow r, P x.tags) →
      ∀ x ∈ preorderRow (rmMatchRow r), P x.tags
  | .mk ri t v tg o cs => by
    intro hall x hx
    simp only [rmMatchRow, preorderRow, List.mem_cons] at hx
    rcases hx with rfl | hx
    · have hh := hall (Row.mk ri t v tg o cs)
        (preorder_row_self ri t v tg o cs)
      simp only [Row.tags] at hh ⊢
      exact hf tg hh
    · exact allTags_rmMatchRows P hf cs
        (fun y hy => hall y (preorder_row_child hy)) x hx

theorem allTags_rmMatchRows (P : List String → Prop)
    (hf : ∀ ts, P ts → P (resetMatchTagList ts)) :
    ∀ w : Forest, (∀ x ∈ preorderRows w, P x.tags) →
      ∀ x ∈ preorderRows (rmMatchRows w), P x.tags
  | [] => by intro _ x hx; simp [rmMatchRows, preorderRows] at hx
  | r :: rs => by
    intro hall x hx
    simp only [rmMatchRows, preorderRows, List.mem_append] at hx
    rcases hx with hx | hx
    · exact allTags_rmMatchRow P hf r
        (fun y hy => hall y (preorder_cons_left hy)) x hx
    · exact allTags_rmMatchRows P hf rs
        (fun y hy => hall y (preorder_cons_right hy)) x hx

end

/-! ## Check-tag membership after a replacement -/

theorem cTagCount_changeCheckTagList_le {ts : List String} (tag : String)
    (h : cTagCount ts ≤ 1) : cTagCount (changeCheckTagList ts tag) ≤ 1 := by
  unfold changeCheckTagList
  have hr := countP_removeFirstWith isCheckTag ts
  have ha := countP_addToSet_le isCheckTag (removeFirstWith isCheckTag ts) tag
  unfold cTagCount at *
  omega

theorem mem_changeCheckTagList_of_check {ts : List String} {tag x : String}
    (h : cTagCount ts ≤ 1) (hx : isCheckTag x = true) :
    x ∈ changeCheckTagList ts tag ↔ x = tag := by
  unfold changeCheckTagList
  rw [mem_addToSet]
  constructor
  · rintro (hmem | rfl)
    · exfalso
      have hzero : (removeFirstWith isCheckTag ts).countP isCheckTag = 0 := by
        have := countP_removeFirstWith isCheckTag ts
        unfold cTagCount at h
        omega
      have := List.countP_eq_zero.mp hzero x hmem
      simp [hx] at this
    · rfl
  · rintro rfl
    exact Or.inr rfl

/-! ## Parent aggregation predicate

The amended form of the ancestor re-evaluation rule, exactly as
`__toggle_parents` computes it: an ancestor carries the checked sector
tag iff every direct child carries a check tag; otherwise the unchecked
sector tag iff no direct child carries a check tag (children in the
mixed state count as not checked); otherwise the ccstate tag. -/

def AggOk (w : Forest) (p : String) : Prop :=
  (TagsConfig.c_check_sector ∈ tagsAt w p ↔
    (childrenIids w p).all (fun c => stateChecked (tagsAt w c)) = true) ∧
  (TagsConfig.c_uncheck_sector ∈ tagsAt w p ↔
    ((childrenIids w p).all (fun c => stateChecked (tagsAt w c)) = false ∧
     (childrenIids w p).all (fun c => !(stateChecked (tagsAt w c))) = true)) ∧
  (TagsConfig.c_ccstate_sector ∈ tagsAt w p ↔
    ((childrenIids w p).all (fun c => stateChecked (tagsAt w c)) = false ∧
     (childrenIids w p).all (fun c => !(stateChecked (tagsAt w c))) = false))

theorem all_congr_mem {cs : List String} {f g : String → Bool}
    (h : ∀ c ∈ cs, f c = g c) : cs.all f = cs.all g := by
  induction cs with
  | nil => rfl
  | cons c cs ih =>
    simp only [List.all_cons]
    rw [h c (List.mem_cons_self _ _), ih (fun y hy =>
      h y (List.mem_cons_of_mem _ hy))]

theorem AggOk_congr {w w2 : Forest} {p : String}
    (hch : childrenIids w2 p = childrenIids w p)
    (hp : tagsAt w2 p = tagsAt w p)
    (hc : ∀ c ∈ childrenIids w p, tagsAt w2 c = tagsAt w c) :
    AggOk w p → AggOk w2 p := by
  intro ha
  unfold AggOk at ha ⊢
  rw [hch, hp]
  have e1 : ((childrenIids w p).all fun c => stateChecked (tagsAt w2 c)) =
      ((childrenIids w p).all fun c => stateChecked (tagsAt w c)) := by
    apply all_congr_mem
    intro c hcm
    dsimp only
    rw [hc c hcm]
  have e2 : ((childrenIids w p).all fun c => !(stateChecked (tagsAt w2 c))) =
      ((childrenIids w p).all fun c => !(stateChecked (tagsAt w c))) := by
    apply all_congr_mem
    intro c hcm
    dsimp only
    rw [hc c hcm]
  rw [e1, e2]
  exact ha

theorem all_not_eq_not_any (cs : List String) (f : String → Bool) :
    cs.all (fun c => !(f c)) = !(cs.any f) := by
  induction cs with
  | nil => rfl
  | cons c cs ih => simp [List.all_cons, List.any_cons, ih]

theorem all_eq_not_any_not (cs : List String) (f : String → Bool) :
    cs.all f = !(cs.any (fun c => !(f c))) := by
  induction cs with
  | nil => rfl
  | cons c cs ih => simp [List.all_cons, List.any_cons, ih]

/-! ## The ancestor-chain aggregation of toggle_check -/

theorem toggleParentsUp_nil (w : Forest) (tag : String) :
    toggleParentsUp w tag [] = w := rfl

theorem toggleParentsUp_single (w : Forest) (tag i : String) :
    toggleParentsUp w tag [i] =
      updTagsRows i (fun ts => changeCheckTagList ts tag) w := rfl

theorem toggleParentsUp_cons_cons (w : Forest) (tag i p : String)
    (rest : List String) :
    toggleParentsUp w tag (i :: p :: rest) =
      toggleParentsUp
        (updTagsRows i (fun ts => changeCheckTagList ts tag) w)
        (aggTag (updTagsRows i (fun ts => changeCheckTagList ts tag) w) p)
        (p :: rest) := rfl

theorem cTag_tagsAt_le {w : Forest} {p : String}
    (hok : ∀ r ∈ preorderRows w, cTagCount r.tags ≤ 1) :
    cTagCount (tagsAt w p) ≤ 1 := by
  unfold tagsAt
  cases hf : findRow? p w with
  | none => simp [cTagCount]
  | some r =>
    have := hok r (findRow_mem p hf)
    simpa using this

theorem childrenIids_of_findRow {w : Forest} {p : String} {rp : Row}
    (hne : ¬(p = "")) (hf : findRow? p w = some rp) :
    childrenIids w p = rp.children.map Row.iid := by
  unfold childrenIids
  simp [hne, hf]

theorem findRow_isSome_of_path {w : Forest} {p : String}
    {ch : List String} (h : pathToRow? p w = some ch) :
    (findRow? p w).isSome = true := by
  rw [findRow_isSome]
  exact (pathToRow_isSome p w).mp (by simp [h])

theorem path_elem_ne_root {w : Forest} {j q : String} {ch : List String}
    (hroot : "" ∉ (preorderRows w).map Row.iid)
    (h : pathToRow? j w = some ch) (hq : q ∈ ch) : ¬(q = "") := by
  rintro rfl
  exact hroot ((pathToRow_sublist j h).subset hq)

theorem toggleParentsUp_aggOk :
    ∀ (asc : List String) (w : Forest) (x tag : String),
      pathToRow? x w = some ((x :: asc).reverse) →
      ((preorderRows w).map Row.iid).Nodup →
      "" ∉ (preorderRows w).map Row.iid →
      (∀ r ∈ preorderRows w, cTagCount r.tags ≤ 1) →
      ∀ p ∈ asc, AggOk (toggleParentsUp w tag (x :: asc)) p
  | [], w, x, tag => by
    intro _ _ _ _ p hp
    simp at hp
  | p0 :: rest, w, x, tag => by
    intro hpath hnd hroot hok p hp
    have hw1eq : True := trivial
    -- step state and tag
    have hskel1 : skelRows (updTagsRows x
        (fun ts => changeCheckTagList ts tag) w) = skelRows w :=
      skelRows_updTagsRows _ _ w
    generalize hw1 : updTagsRows x
      (fun ts => changeCheckTagList ts tag) w = w1 at hskel1
    have hnd1 : ((preorderRows w1).map Row.iid).Nodup := by
      rw [preorder_iids_of_skel_eq hskel1]
      exact hnd
    have hroot1 : "" ∉ (preorderRows w1).map Row.iid := by
      rw [preorder_iids_of_skel_eq hskel1]
      exact hroot
    have hok1 : ∀ r ∈ preorderRows w1, cTagCount r.tags ≤ 1 := by
      rw [← hw1]
      exact allTags_updTagsRows (fun ts => cTagCount ts ≤ 1) _ _
        (fun ts h => cTagCount_changeCheckTagList_le tag h) w hok
    -- the path to p0
    have hpath' : pathToRow? x w =
        some (rest.reverse ++ p0 :: [x]) := by
      rw [hpath]
      simp
    have hpathp0 : pathToRow? p0 w = some (rest.reverse ++ [p0]) :=
      pathToRow_pre x p0 hnd hpath'
    have hpathp0' : pathToRow? p0 w1 = some ((p0 :: rest).reverse) := by
      rw [pathToRow_of_skel_eq hskel1, hpathp0]
      simp
    -- chain without duplicates
    have hchain_nd : (x :: p0 :: rest).Nodup := by
      have hs := pathToRow_sublist x hpath
      have hrev := List.Nodup.sublist hs hnd
      rw [← List.nodup_reverse]
      exact hrev
    have hp0rest : p0 ∉ rest := by
      have h2 := (List.nodup_cons.mp hchain_nd).2
      exact (List.nodup_cons.mp h2).1
    -- one recursion step
    rw [toggleParentsUp_cons_cons, hw1]
    rcases List.mem_cons.mp hp with heq | hpr
    · -- the head ancestor p0 itself
      subst p
      have hfs : (findRow? p0 w1).isSome = true :=
        findRow_isSome_of_path hpathp0'
      obtain ⟨rp, hrp⟩ := Option.isSome_iff_exists.mp hfs
      have hp0ne : ¬(p0 = "") := by
        refine path_elem_ne_root hroot1 hpathp0' ?_
        simp
      have hcseq : childrenIids w1 p0 = rp.children.map Row.iid :=
        childrenIids_of_findRow hp0ne hrp
      -- final tags of p0
      have hfinal_p0 : tagsAt (toggleParentsUp w1 (aggTag w1 p0)
          (p0 :: rest)) p0 =
          changeCheckTagList (tagsAt w1 p0) (aggTag w1 p0) := by
        cases rest with
        | nil =>
          rw [toggleParentsUp_single]
          exact tagsAt_updTagsRows_self hfs _
        | cons q qs =>
          rw [toggleParentsUp_cons_cons]
          have hq : p0 ∉ q :: qs := hp0rest
          rw [tagsAt_toggleParentsUp_not_mem _ (q :: qs) _ hq]
          exact tagsAt_updTagsRows_self hfs _
      -- the children of p0 are stable from w1 on
      have hchild_stable : ∀ c ∈ childrenIids w1 p0,
          tagsAt (toggleParentsUp w1 (aggTag w1 p0) (p0 :: rest)) c =
            tagsAt w1 c := by
        intro c hc
        have hcp : pathToRow? c w1 =
            some ((p0 :: rest).reverse ++ [c]) :=
          pathToRow_child p0 c hnd1 hpathp0' hrp (hcseq ▸ hc)
        have hcnd := List.Nodup.sublist (pathToRow_sublist c hcp) hnd1
        have hcnot : c ∉ p0 :: rest := by
          intro hmem
          rw [List.nodup_append] at hcnd
          exact hcnd.2.2 (List.mem_reverse.mpr hmem)
            (List.mem_singleton.mpr rfl)
        exact tagsAt_toggleParentsUp_not_mem _ (p0 :: rest) _ hcnot
      have hskelf : skelRows (toggleParentsUp w1 (aggTag w1 p0)
          (p0 :: rest)) = skelRows w1 :=
        skelRows_toggleParentsUp _ _ _
      have hchf : childrenIids (toggleParentsUp w1 (aggTag w1 p0)
          (p0 :: rest)) p0 = childrenIids w1 p0 :=
        childrenIids_of_skel_eq hskelf p0
      have hok_p0 : cTagCount (tagsAt w1 p0) ≤ 1 := cTag_tagsAt_le hok1
      have hmemchar : ∀ y, isCheckTag y = true →
          (y ∈ tagsAt (toggleParentsUp w1 (aggTag w1 p0)
            (p0 :: rest)) p0 ↔ y = aggTag w1 p0) := by
        intro y hy
        rw [hfinal_p0]
        exact mem_changeCheckTagList_of_check hok_p0 hy
      -- reduce the aggregation over the final state to w1
      unfold AggOk
      rw [hchf]
      have e1 : ((childrenIids w1 p0).all fun c =>
          stateChecked (tagsAt (toggleParentsUp w1 (aggTag w1 p0)
            (p0 :: rest)) c)) =
          ((childrenIids w1 p0).all fun c => stateChecked (tagsAt w1 c)) := by
        apply all_congr_mem
        intro c hcm
        dsimp only
        rw [hchild_stable c hcm]
      have e2 : ((childrenIids w1 p0).all fun c =>
          !(stateChecked (tagsAt (toggleParentsUp w1 (aggTag w1 p0)
            (p0 :: rest)) c))) =
          ((childrenIids w1 p0).all fun c =>
            !(stateChecked (tagsAt w1 c))) := by
        apply all_congr_mem
        intro c hcm
        dsimp only
        rw [hchild_stable c hcm]
      rw [e1, e2]
      rw [hmemchar _ (by decide), hmemchar _ (by decide),
        hmemchar _ (by decide)]
      -- compute the aggregation tag
      have hagg : aggTag w1 p0 =
          if !((childrenIids w1 p0).any
              (fun c => !(stateChecked (tagsAt w1 c)))) then
            TagsConfig.c_check_sector
          else if !((childrenIids w1 p0).any
              (fun c => stateChecked (tagsAt w1 c))) then
            TagsConfig.c_uncheck_sector
          else TagsConfig.c_ccstate_sector := rfl
      rw [hagg]
      rw [all_eq_not_any_not (childrenIids w1 p0)
        (fun c => stateChecked (tagsAt w1 c))]
      rw [all_not_eq_not_any (childrenIids w1 p0)
        (fun c => stateChecked (tagsAt w1 c))]
      cases hU : (childrenIids w1 p0).any
          (fun c => !(stateChecked (tagsAt w1 c))) <;>
        cases hC : (childrenIids w1 p0).any
            (fun c => stateChecked (tagsAt w1 c)) <;>
          simp <;> decide
    · -- deeper ancestors by induction
      exact toggleParentsUp_aggOk rest w1 p0 (aggTag w1 p0) hpathp0'
        hnd1 hroot1 hok1 p hpr

/-! # Claims -/

/-- Core of the toggle pipeline: after the upward aggregation pass and
the downward forcing pass, every strict ancestor of the toggled row
satisfies the aggregation trichotomy, whatever tags the passes were
given. -/
theorem aggOk_toggle_pipeline (w : Forest) (iid_path : String)
    (ch : List String) (tg te ts2 : String) (secs : List String)
    (hne : ¬(iid_path = ""))
    (hpath : pathToRow? iid_path w = some ch)
    (hnd : ((preorderRows w).map Row.iid).Nodup)
    (hroot : "" ∉ (preorderRows w).map Row.iid)
    (hok : ∀ r ∈ preorderRows w, cTagCount r.tags ≤ 1) :
    ∀ p ∈ ch.dropLast,
      AggOk (toggleChildrenOp (toggleParentsUp w tg ch.reverse)
        iid_path secs te ts2) p := by
  intro p hpd
  -- the chain splits as dropLast ++ [iid_path]
  obtain ⟨hchne, hlast⟩ := pathToRow_getLast iid_path hpath
  have hsplit : ch.dropLast ++ [iid_path] = ch := by
    have hgl := List.getLast?_eq_getLast ch hchne
    rw [hgl] at hlast
    have : ch.getLast hchne = iid_path := by
      simpa using hlast
    rw [← this]
    exact List.dropLast_append_getLast hchne
  have hchrev : ch.reverse = iid_path :: ch.dropLast.reverse := by
    rw [← hsplit]
    simp
  have hpath2 : pathToRow? iid_path w =
      some ((iid_path :: ch.dropLast.reverse).reverse) := by
    rw [hpath]
    congr 1
    rw [← hchrev]
    simp
  -- aggregation holds after the upward pass
  have hagg := toggleParentsUp_aggOk ch.dropLast.reverse w iid_path
    tg hpath2 hnd hroot hok p (List.mem_reverse.mpr hpd)
  rw [← hchrev] at hagg
  -- chain facts for the transport through the downward pass
  have hchnd : ch.Nodup := List.Nodup.sublist (pathToRow_sublist _ hpath) hnd
  have hxnotdl : iid_path ∉ ch.dropLast := by
    intro hmem
    have h2 := hsplit ▸ hchnd
    rw [List.nodup_append] at h2
    exact h2.2.2 hmem (List.mem_singleton.mpr rfl)
  obtain ⟨l1, l2, hdl⟩ := List.append_of_mem hpd
  have hchsplit : ch = l1 ++ p :: (l2 ++ [iid_path]) := by
    rw [← hsplit, hdl]
    simp
  have hpathp : pathToRow? p w = some (l1 ++ [p]) :=
    pathToRow_pre iid_path p hnd (hchsplit ▸ hpath)
  have hxl1 : iid_path ∉ l1 := fun hmem =>
    hxnotdl (hdl ▸ List.mem_append_left _ hmem)
  have hxp : ¬(iid_path = p) := by
    rintro rfl
    exact hxnotdl hpd
  have hpne : ¬(p = "") := by
    refine path_elem_ne_root hroot hpath ?_
    rw [← hsplit]
    exact List.mem_append_left _ hpd
  -- skeleton transports
  have hskelU : skelRows (toggleParentsUp w tg ch.reverse) =
      skelRows w := skelRows_toggleParentsUp _ _ _
  have hpathpU : pathToRow? p
      (toggleParentsUp w tg ch.reverse) = some (l1 ++ [p]) := by
    rw [pathToRow_of_skel_eq hskelU]
    exact hpathp
  have hfspU : (findRow? p (toggleParentsUp w tg ch.reverse)).isSome
      = true := findRow_isSome_of_path hpathpU
  obtain ⟨rp, hrp⟩ := Option.isSome_iff_exists.mp hfspU
  have hcseq : childrenIids (toggleParentsUp w tg ch.reverse) p =
      rp.children.map Row.iid := childrenIids_of_findRow hpne hrp
  have hndU : ((preorderRows (toggleParentsUp w tg
      ch.reverse)).map Row.iid).Nodup := by
    rw [preorder_iids_of_skel_eq hskelU]
    exact hnd
  -- AggOk is preserved by the downward pass
  refine AggOk_congr ?_ ?_ ?_ hagg
  · exact childrenIids_of_skel_eq
      (skelRows_toggleChildrenOp _ _ _ _ _) p
  · refine tagsAt_toggleChildrenOp_not_below _ _ _ hne _ ?_
    intro ch' hch'
    rw [hpathpU] at hch'
    cases hch'
    rw [List.dropLast_concat]
    exact hxl1
  · intro c hc
    have hcp : pathToRow? c (toggleParentsUp w tg ch.reverse) =
        some ((l1 ++ [p]) ++ [c]) :=
      pathToRow_child p c hndU hpathpU hrp (hcseq ▸ hc)
    refine tagsAt_toggleChildrenOp_not_below _ _ _ hne _ ?_
    intro ch' hch'
    rw [hcp] at hch'
    cases hch'
    rw [List.dropLast_concat]
    intro hmem
    rcases List.mem_append.mp hmem with hmem | hmem
    · exact hxl1 hmem
    · exact hxp (List.mem_singleton.mp hmem)

/-- C1 (amended).  For every loaded tree and every toggle_check call on
a non-empty iid_path of an existing row, after the toggle each strict
ancestor of the toggled row, all the way up to the root, carries the
checked sector tag iff all of its direct children carry check tags;
otherwise the unchecked sector tag iff no direct child carries a check
tag -- a child in the mixed state counts as not checked, so an ancestor
whose children are a mixed sector and an unchecked row is tagged
unchecked, not mixed -- and otherwise (some but not all children
checked) the ccstate tag.  Hypotheses: the rows carry pairwise
distinct, non-empty iids (Tk guarantees both) and at most one check
tag each. -/
theorem toggle_check_ancestor_aggregation (st : SelectTree)
    (check : Option Bool) (iid_path : String) (ch : List String)
    (hne : ¬(iid_path = ""))
    (hpath : pathToRow? iid_path st.rows = some ch)
    (hnd : ((preorderRows st.rows).map Row.iid).Nodup)
    (hroot : "" ∉ (preorderRows st.rows).map Row.iid)
    (hok : ∀ r ∈ preorderRows st.rows, cTagCount r.tags ≤ 1) :
    ∀ p ∈ ch.dropLast,
      AggOk ((st.toggle_check check iid_path).1).rows p := by
  intro p hpd
  simp only [SelectTree.toggle_check, hne, if_false, hpath]
  exact aggOk_toggle_pipeline st.rows iid_path ch _ _ _ _ hne hpath hnd
    hroot hok p hpd

/-- Concrete tree S(T(a,b), c) used to exercise the ancestor
aggregation. -/
def demoNested : List TreeNode :=
  [TreeNode.plain "S" "" [TreeNode.plain "T" ""
      [TreeNode.plain "a" "" [], TreeNode.plain "b" "" []],
    TreeNode.plain "c" "" []]]

/-- Witness for C1: the hypotheses hold for the loaded tree S(T(a,b),c)
and the toggle of the leaf a, and the amended aggregation rule follows
for its ancestors S.T and S. -/
theorem toggle_check_ancestor_aggregation_witness :
    (¬(("S.T.a" : String) = "")) ∧
    pathToRow? "S.T.a" (loadRestructure demoNested).rows =
      some ["S", "S.T", "S.T.a"] ∧
    (∀ p ∈ (["S", "S.T", "S.T.a"] : List String).dropLast,
      AggOk (((loadRestructure demoNested).toggle_check none
        "S.T.a").1).rows p) :=
  ⟨by decide, by decide,
    toggle_check_ancestor_aggregation (loadRestructure demoNested) none
      "S.T.a" ["S", "S.T", "S.T.a"] (by decide) (by decide) (by decide)
      (by decide) (by decide)⟩

/-- Counterexample to C1 as stated: after toggling the leaf S.T.a on in
the loaded tree S(T(a,b),c), the children of S are the mixed sector S.T
and the unchecked entry S.c, so the claim requires the ccstate tag on
S; the code instead tags S as an unchecked sector. -/
theorem toggle_check_mixed_child_counterexample :
    TagsConfig.c_ccstate_sector ∈ tagsAt
      (((loadRestructure demoNested).toggle_check none "S.T.a").1).rows
      "S.T" ∧
    TagsConfig.c_uncheck_entry ∈ tagsAt
      (((loadRestructure demoNested).toggle_check none "S.T.a").1).rows
      "S.c" ∧
    TagsConfig.c_uncheck_sector ∈ tagsAt
      (((loadRestructure demoNested).toggle_check none "S.T.a").1).rows
      "S" ∧
    TagsConfig.c_ccstate_sector ∉ tagsAt
      (((loadRestructure demoNested).toggle_check none "S.T.a").1).rows
      "S" := by
  decide

/-! ## C8: the compiled check-state invariant -/

/-- A list of tri-state values with two distinct elements. -/
def NonUniform (l : List (Option Bool)) : Prop :=
  ∃ x ∈ l, ∃ y ∈ l, ¬(x = y)

instance (l : List (Option Bool)) : Decidable (NonUniform l) := by
  unfold NonUniform
  exact inferInstance

namespace TreeNode

theorem leaves_nil_children (la va ii : String) (ck : Option Bool)
    (op : Bool) (tg : List String) (ip sep : String) :
    leaves (.mk la va ii ck op tg ip sep []) =
      [.mk la va ii ck op tg ip sep []] := rfl

theorem leaves_cons_children (la va ii : String) (ck : Option Bool)
    (op : Bool) (tg : List String) (ip sep : String) (c0 : TreeNode)
    (cs : List TreeNode) :
    leaves (.mk la va ii ck op tg ip sep (c0 :: cs)) =
      leavesList (c0 :: cs) := rfl

theorem allNodes_eq (la va ii : String) (ck : Option Bool) (op : Bool)
    (tg : List String) (ip sep : String) (children : List TreeNode) :
    allNodes (.mk la va ii ck op tg ip sep children) =
      .mk la va ii ck op tg ip sep children :: allNodesList children := rfl

mutual

theorem leaves_mem_allNodes :
    ∀ {t : TreeNode} {n : TreeNode}, n ∈ leaves t → n ∈ allNodes t
  | .mk la va ii ck op tg ip sep children, n => by
    intro hn
    cases children with
    | nil =>
      rw [leaves_nil_children] at hn
      rw [allNodes_eq]
      rcases List.mem_singleton.mp hn with rfl
      exact List.mem_cons_self _ _
    | cons c cs =>
      rw [leaves_cons_children] at hn
      rw [allNodes_eq]
      exact List.mem_cons_of_mem _ (leavesList_mem_allNodesList hn)

theorem leavesList_mem_allNodesList :
    ∀ {cs : List TreeNode} {n : TreeNode},
      n ∈ leavesList cs → n ∈ allNodesList cs
  | [], n => by intro hn; cases hn
  | c :: cs, n => by
    intro hn
    simp only [leavesList, List.mem_append] at hn
    simp only [allNodesList, List.mem_append]
    rcases hn with hn | hn
    · exact Or.inl (leaves_mem_allNodes hn)
    · exact Or.inr (leavesList_mem_allNodesList hn)

end

mutual

theorem leaves_no_children :
    ∀ {t : TreeNode} {n : TreeNode}, n ∈ leaves t → n.children = []
  | .mk la va ii ck op tg ip sep children, n => by
    intro hn
    cases children with
    | nil =>
      rw [leaves_nil_children] at hn
      rcases List.mem_singleton.mp hn with rfl
      rfl
    | cons c cs =>
      rw [leaves_cons_children] at hn
      exact leavesList_no_children hn

theorem leavesList_no_children :
    ∀ {cs : List TreeNode} {n : TreeNode},
      n ∈ leavesList cs → n.children = []
  | [], n => by intro hn; cases hn
  | c :: cs, n => by
    intro hn
    simp only [leavesList, List.mem_append] at hn
    rcases hn with hn | hn
    · exact leaves_no_children hn
    · exact leavesList_no_children hn

end

theorem compileGo_eq (p : String) (c : Option Bool) (la va ii : String)
    (ck : Option Bool) (op : Bool) (tg : List String) (ip sep : String)
    (children : List TreeNode) :
    compileGo p c (.mk la va ii ck op tg ip sep children) =
      (.mk la va ii
        (if (compileChildren p sep c children).2.1 &&
            (compileChildren p sep c children).2.2 then none
         else if (compileChildren p sep c children).2.2 then some true
         else if (compileChildren p sep c children).2.1 then some false
         else if c = none then some false
         else c)
        op tg p sep (compileChildren p sep c children).1,
       (compileChildren p sep c children).2) := rfl

theorem compileChildren_cons (pp sep : String) (c : Option Bool)
    (c0 : TreeNode) (cs : List TreeNode) :
    compileChildren pp sep c (c0 :: cs) =
      ((compileGo (pp ++ sep ++ c0.iid)
          (if c0.checked = none then c else c0.checked) c0).1 ::
        (compileChildren pp sep c cs).1,
       ((!((if c0.checked = none then c else c0.checked).getD false)) ||
          (compileGo (pp ++ sep ++ c0.iid)
            (if c0.checked = none then c else c0.checked) c0).2.1 ||
          (compileChildren pp sep c cs).2.1,
        ((if c0.checked = none then c else c0.checked).getD false) ||
          (compileGo (pp ++ sep ++ c0.iid)
            (if c0.checked = none then c else c0.checked) c0).2.2 ||
          (compileChildren pp sep c cs).2.2)) := rfl

theorem compileGo_leaf_eq (p : String) (c : Option Bool)
    (la va ii : String) (ck : Option Bool) (op : Bool)
    (tg : List String) (ip sep : String) :
    (compileGo p c (.mk la va ii ck op tg ip sep [])).1 =
      .mk la va ii (some (c.getD false)) op tg p sep [] := by
  rw [compileGo_eq]
  cases c with
  | none => rfl
  | some b => rfl

mutual

theorem compileGo_leaf_some (p : String) (c : Option Bool) :
    ∀ t : TreeNode, ∀ n ∈ allNodes (compileGo p c t).1,
      n.children = [] → ¬(n.checked = none)
  | .mk la va ii ck op tg ip sep children => by
    intro n hn hleaf
    rw [compileGo_eq] at hn
    rw [allNodes_eq] at hn
    rcases List.mem_cons.mp hn with rfl | hn
    · replace hleaf : (compileChildren p sep c children).1 = [] := hleaf
      cases children with
      | nil =>
        simp only [checked]
        cases c with
        | none => simp [compileChildren]
        | some b => simp [compileChildren]
      | cons c0 cs =>
        rw [compileChildren_cons] at hleaf
        cases hleaf
    · exact compileChildren_leaf_some p sep c children n hn hleaf

theorem compileChildren_leaf_some (pp sep : String) (c : Option Bool) :
    ∀ cs : List TreeNode,
      ∀ n ∈ allNodesList (compileChildren pp sep c cs).1,
        n.children = [] → ¬(n.checked = none)
  | [] => by intro n hn; cases hn
  | c0 :: cs => by
    intro n hn hleaf
    rw [compileChildren_cons] at hn
    simp only [allNodesList, List.mem_append] at hn
    rcases hn with hn | hn
    · exact compileGo_leaf_some _ _ c0 n hn hleaf
    · exact compileChildren_leaf_some pp sep c cs n hn hleaf

end

mutual

theorem compileGo_cover (p : String) (c : Option Bool) :
    ∀ t : TreeNode, ¬(t.children = []) → ∀ b : Bool,
      some b ∈ ((compileGo p c t).1.leaves).map TreeNode.checked →
      (b = true → (compileGo p c t).2.2 = true) ∧
      (b = false → (compileGo p c t).2.1 = true)
  | .mk la va ii ck op tg ip sep children => by
    intro hne b hb
    cases children with
    | nil => exact absurd rfl hne
    | cons c0 cs => exact compileChildren_cover p sep c (c0 :: cs) b hb

theorem compileChildren_cover (pp sep : String) (c : Option Bool) :
    ∀ cs : List TreeNode, ∀ b : Bool,
      some b ∈
        (leavesList (compileChildren pp sep c cs).1).map TreeNode.checked →
      (b = true → (compileChildren pp sep c cs).2.2 = true) ∧
      (b = false → (compileChildren pp sep c cs).2.1 = true)
  | [], b => by intro hb; cases hb
  | c0 :: cs, b => by
    intro hb
    rcases c0 with ⟨l0, v0, i0, k0, o0, g0, q0, s0, ch0⟩
    rw [compileChildren_cons] at hb ⊢
    simp only [TreeNode.checked, TreeNode.iid] at hb ⊢
    simp only [leavesList, List.map_append, List.mem_append] at hb
    rcases hb with hb | hb
    · cases ch0 with
      | nil =>
        rw [compileGo_leaf_eq, leaves_nil_children] at hb
        simp only [List.map_cons, List.map_nil, List.mem_singleton,
          TreeNode.checked] at hb
        have hbeq : b = (if k0 = none then c else k0).getD false :=
          Option.some.inj hb
        constructor
        · intro hbt
          rw [hbt] at hbeq
          simp [← hbeq]
        · intro hbf
          rw [hbf] at hbeq
          simp [← hbeq]
      | cons d ds =>
        have hchne : ¬((TreeNode.mk l0 v0 i0 k0 o0 g0 q0 s0
            (d :: ds)).children = []) := by
          simp [TreeNode.children]
        have hrec := compileGo_cover (pp ++ sep ++ i0)
          (if k0 = none then c else k0)
          (TreeNode.mk l0 v0 i0 k0 o0 g0 q0 s0 (d :: ds)) hchne b
          (by simpa [TreeNode.checked, TreeNode.iid] using hb)
        constructor
        · intro hbt
          have hx := hrec.1 hbt
          simp only [TreeNode.checked, TreeNode.iid] at hx
          simp [hx]
        · intro hbf
          have hx := hrec.2 hbf
          simp only [TreeNode.checked, TreeNode.iid] at hx
          simp [hx]
    · have hrec := compileChildren_cover pp sep c cs b hb
      constructor
      · intro hbt
        simp [hrec.1 hbt]
      · intro hbf
        simp [hrec.2 hbf]

end

theorem compileGo_both (p : String) (c : Option Bool) (t : TreeNode)
    (hne : ¬(t.children = []))
    (hT : some true ∈ ((compileGo p c t).1.leaves).map TreeNode.checked)
    (hF : some false ∈ ((compileGo p c t).1.leaves).map TreeNode.checked) :
    (compileGo p c t).2.1 = true ∧ (compileGo p c t).2.2 = true :=
  ⟨(compileGo_cover p c t hne false hF).2 rfl,
   (compileGo_cover p c t hne true hT).1 rfl⟩

mutual

theorem compileGo_mixed (p : String) (c : Option Bool) :
    ∀ t : TreeNode, ∀ n ∈ allNodes (compileGo p c t).1,
      NonUniform ((leaves n).map TreeNode.checked) → n.checked = none
  | .mk la va ii ck op tg ip sep children => by
    intro n hn hmix
    cases children with
    | nil =>
      rw [compileGo_eq] at hn
      rw [allNodes_eq] at hn
      rcases List.mem_cons.mp hn with rfl | hn
      · exfalso
        obtain ⟨x, hx, y, hy, hxy⟩ := hmix
        simp only [compileChildren] at hx hy
        rw [leaves_nil_children] at hx hy
        simp only [List.map_cons, List.map_nil, List.mem_singleton]
          at hx hy
        exact hxy (hx.trans hy.symm)
      · simp only [compileChildren, allNodesList] at hn
        cases hn
    | cons c0 cs =>
      rw [compileGo_eq] at hn
      rw [allNodes_eq] at hn
      rcases List.mem_cons.mp hn with rfl | hn
      · obtain ⟨x, hx, y, hy, hxy⟩ := hmix
        obtain ⟨mx, hmx, hmxe⟩ := List.mem_map.mp hx
        obtain ⟨my, hmy, hmye⟩ := List.mem_map.mp hy
        have hxs := compileGo_leaf_some p c
          (.mk la va ii ck op tg ip sep (c0 :: cs)) mx
          (by rw [compileGo_eq]; exact leaves_mem_allNodes hmx)
          (leaves_no_children hmx)
        have hys := compileGo_leaf_some p c
          (.mk la va ii ck op tg ip sep (c0 :: cs)) my
          (by rw [compileGo_eq]; exact leaves_mem_allNodes hmy)
          (leaves_no_children hmy)
        have hne : ¬((TreeNode.mk la va ii ck op tg ip sep
            (c0 :: cs)).children = []) :=
          fun h => List.cons_ne_nil c0 cs h
        cases hbx : mx.checked with
        | none => exact absurd hbx hxs
        | some bx =>
          cases hby : my.checked with
          | none => exact absurd hby hys
          | some by2 =>
            rw [hbx] at hmxe
            rw [hby] at hmye
            subst hmxe
            subst hmye
            have hbb : ¬(bx = by2) := fun h => hxy (by rw [h])
            have hboth :
                (compileChildren p sep c (c0 :: cs)).2.1 = true ∧
                (compileChildren p sep c (c0 :: cs)).2.2 = true := by
              cases bx with
              | true =>
                cases by2 with
                | true => exact absurd rfl hbb
                | false =>
                  exact compileGo_both p c
                    (.mk la va ii ck op tg ip sep (c0 :: cs)) hne hx hy
              | false =>
                cases by2 with
                | true =>
                  exact compileGo_both p c
                    (.mk la va ii ck op tg ip sep (c0 :: cs)) hne hy hx
                | false => exact absurd rfl hbb
            simp only [TreeNode.checked]
            rw [hboth.1, hboth.2]
            rfl
      · exact compileChildren_mixed p sep c (c0 :: cs) n hn hmix

theorem compileChildren_mixed (pp sep : String) (c : Option Bool) :
    ∀ cs : List TreeNode,
      ∀ n ∈ allNodesList (compileChildren pp sep c cs).1,
        NonUniform ((leaves n).map TreeNode.checked) → n.checked = none
  | [] => by intro n hn; cases hn
  | c0 :: cs => by
    intro n hn hmix
    rw [compileChildren_cons] at hn
    simp only [allNodesList, List.mem_append] at hn
    rcases hn with hn | hn
    · exact compileGo_mixed (pp ++ sep ++ c0.iid)
        (if c0.checked = none then c else c0.checked) c0 n hn hmix
    · exact compileChildren_mixed pp sep c cs n hn hmix

end

end TreeNode

/-! ## C8: compile and the mixed state

The spec claims the compiled `checked` is mixed (`None`) iff the node's
descendant leaves are not uniformly checked, and that leaves are never
mixed.  The second half and the direction "non-uniform leaves imply
mixed" hold; the converse fails, because `compile` adds
`_child.checked or False` to the `checks` set *before* recursing
(line 249), so an undeclared intermediate node contributes `False` even
when every leaf below it is checked. -/

/-- **C8** (amended).  After `TreeNode.compile`, every node `n` of the
compiled tree satisfies: a leaf (no children) never has the mixed
checked value `none`, and if the checked values of `n`'s descendant
leaves are not uniform then `n`'s checked value is the mixed `none`.
(The converse of the second part is refuted by
`compile_mixed_uniform_counterexample`.) -/
theorem compile_checked_invariant (t n : TreeNode)
    (hn : n ∈ TreeNode.allNodes t.compile) :
    (n.children = [] → ¬(n.checked = none)) ∧
    (NonUniform ((TreeNode.leaves n).map TreeNode.checked) →
      n.checked = none) :=
  ⟨fun hleaf => TreeNode.compileGo_leaf_some t.iidPath t.checked t n hn hleaf,
   fun hmix => TreeNode.compileGo_mixed t.iidPath t.checked t n hn hmix⟩

/-- A two-leaf tree whose leaves carry opposite explicit check states. -/
def demoC8mix : TreeNode :=
  TreeNode.plain "S" "" [TreeNode.plainChk "a" "" (some true) [],
    TreeNode.plainChk "b" "" (some false) []]

theorem compile_checked_invariant_witness :
    (demoC8mix.compile ∈ TreeNode.allNodes demoC8mix.compile) ∧
    NonUniform ((TreeNode.leaves demoC8mix.compile).map TreeNode.checked) ∧
    demoC8mix.compile.checked = none :=
  ⟨List.mem_cons_self _ _, by decide,
   (compile_checked_invariant demoC8mix demoC8mix.compile
     (List.mem_cons_self _ _)).2 (by decide)⟩

/-- A chain `S -> T -> L` with only the leaf `L` explicitly checked. -/
def demoC8uni : TreeNode :=
  TreeNode.plain "S" ""
    [TreeNode.plain "T" "" [TreeNode.plainChk "L" "" (some true) []]]

/-- **C8**, counterexample to the original "iff": in `demoC8uni` the one
descendant leaf of the root compiles to checked `some true` — the leaves
are uniformly checked — yet the root's compiled checked value is the
mixed `none`. -/
theorem compile_mixed_uniform_counterexample :
    (TreeNode.leaves demoC8uni.compile).map TreeNode.checked =
      [some true] ∧
    demoC8uni.compile.checked = none := by decide

/-! ## C9: toggle_check on childless nodes

The spec says toggling a node with zero children yields unchecked.
That holds only for the empty iid path (the widget root): there
`check = not all(...)` over an empty child list gives False.  For a
childless *row* reached by a non-empty iid path (a leaf entry), the
source computes `check = tag_check not in item(iid_path, "tags")`, so an
unchecked leaf toggles to checked and the call returns True. -/

/-- **C9** (amended).  `toggle_check(None, "")` on a widget whose root
has zero children returns False; but `toggle_check(None, p)` on a
non-empty iid path returns the *negation* of the prior presence of the
check tag there (so a childless unchecked leaf returns True — the
original "always unchecked" is refuted by
`toggle_leaf_checked_counterexample`). -/
theorem toggle_check_zero_children (st : SelectTree) (p : String) :
    (childrenIids st.rows "" = [] →
      (st.toggle_check none "").2 = false) ∧
    (¬(p = "") →
      (st.toggle_check none p).2 =
        !(decide ((if p ∈ st.all_sector_iids then TagsConfig.c_check_sector
                   else TagsConfig.c_check_entry) ∈ tagsAt st.rows p))) := by
  constructor
  · intro hcs
    simp only [SelectTree.toggle_check, eq_self_iff_true, if_true, hcs,
      List.all_nil, Bool.not_true]
  · intro hp
    simp only [SelectTree.toggle_check, if_neg hp]

/-- An empty widget. -/
def demoC9empty : SelectTree := loadRestructure []

/-- A widget with the single leaf entry `A`. -/
def demoC9 : SelectTree := loadRestructure [TreeNode.plain "A" "" []]

theorem toggle_check_zero_children_witness :
    (childrenIids demoC9empty.rows "" = [] ∧
      (demoC9empty.toggle_check none "").2 = false) ∧
    (¬(("A" : String) = "") ∧
      (demoC9.toggle_check none "A").2 = true) :=
  ⟨⟨by decide, (toggle_check_zero_children demoC9empty "A").1 (by decide)⟩,
   ⟨by decide, by
      rw [(toggle_check_zero_children demoC9 "A").2 (by decide)]
      decide⟩⟩

/-- **C9**, counterexample to the original claim: the leaf entry `A` has
zero children, yet `toggle_check(None, "A")` returns True (it checks the
entry) rather than False. -/
theorem toggle_leaf_checked_counterexample :
    childrenIids demoC9.rows "A" = [] ∧
    (demoC9.toggle_check none "A").2 = true := by decide

/-! ## C4: the dump/load round trip

`load`'s docstring states that `restructure` (default False) is "not
required if structure comes from dump".  But for a structure with any
sector, the restructure=False branch evaluates `_node.parent.parent`
(line 544); nodes built by `from_treeitem` — which is what `dump`
returns — never carry a `parent` attribute, so `_node.parent` is the
class default `None` and the attribute access raises AttributeError.
The round trip therefore crashes instead of reproducing the tree. -/

theorem dumpGos_eq_map (w : Forest) :
    ∀ cs : List TreeNode, dumpGos w cs = cs.map (dumpGo w)
  | [] => rfl
  | c :: cs => by
    simp only [dumpGos, List.map_cons, dumpGos_eq_map w cs]

theorem compileChildren_fst_map (pp sep : String) (c : Option Bool) :
    ∀ cs : List TreeNode,
      (TreeNode.compileChildren pp sep c cs).1 =
        cs.map (fun c0 => (TreeNode.compileGo (pp ++ sep ++ c0.iid)
          (if c0.checked = none then c else c0.checked) c0).1)
  | [] => rfl
  | c0 :: cs => by
    rw [TreeNode.compileChildren_cons, List.map_cons,
      compileChildren_fst_map pp sep c cs]

theorem loadFreshRow_error_of_children {n : TreeNode}
    (h : ¬(n.children = [])) : loadFreshRow n = .error () := by
  rcases n with ⟨la, va, ii, ck, op, tg, ip, sep, children⟩
  cases children with
  | nil => exact absurd rfl h
  | cons c cs => rfl

theorem loadFreshRows_error :
    ∀ {ns : List TreeNode}, (∃ n ∈ ns, ¬(n.children = [])) →
      loadFreshRows ns = .error () := by
  intro ns
  induction ns with
  | nil =>
    intro h
    obtain ⟨n, hn, _⟩ := h
    cases hn
  | cons a l ih =>
    intro h
    obtain ⟨n, hn, hc⟩ := h
    rcases List.mem_cons.mp hn with rfl | hn
    · simp only [loadFreshRows, loadFreshRow_error_of_children hc]
    · simp only [loadFreshRows]
      cases hfr : loadFreshRow a with
      | error e => cases e; rfl
      | ok r => rw [ih ⟨n, hn, hc⟩]

theorem loadFreshNoRestructure_error {ns : List TreeNode}
    (h : ∃ n ∈ ns, ¬(n.children = [])) :
    loadFreshNoRestructure ns = .error () := by
  simp only [loadFreshNoRestructure, loadFreshRows_error h]

theorem compileGo_children_ne {p : String} {c : Option Bool}
    {n : TreeNode} (h : ¬(n.children = [])) :
    ¬(((TreeNode.compileGo p c n).1).children = []) := by
  rcases n with ⟨la, va, ii, ck, op, tg, ip, sep, children⟩
  cases children with
  | nil => exact absurd rfl h
  | cons c0 cs =>
    intro hcon
    replace hcon :
        (TreeNode.compileChildren p sep c (c0 :: cs)).1 = [] := hcon
    rw [TreeNode.compileChildren_cons] at hcon
    cases hcon

theorem dumpGo_children_ne {w : Forest} {n : TreeNode}
    (h : ¬(n.children = [])) : ¬((dumpGo w n).children = []) := by
  rcases n with ⟨la, va, ii, ck, op, tg, ip, sep, children⟩
  cases children with
  | nil => exact absurd rfl h
  | cons c0 cs =>
    intro hcon
    replace hcon : dumpGos w (c0 :: cs) = [] := hcon
    rw [dumpGos_eq_map, List.map_cons] at hcon
    cases hcon

/-- **C4** (code bug).  For any structure with at least one sector,
loading the children of its own dump with the default
`restructure=False` — the mode the docstring prescribes for dump
output — raises AttributeError (modelled as `.error ()`) instead of
reproducing the tree: `load` reads `_node.parent.parent` (line 544) and
the nodes `dump` builds via `from_treeitem` have `parent = None`. -/
theorem load_dump_attribute_error (struc : List TreeNode)
    (h : ∃ n ∈ struc, ¬(n.children = [])) :
    loadFreshNoRestructure (((loadRestructure struc).dump).children) =
      .error () := by
  apply loadFreshNoRestructure_error
  obtain ⟨n, hn, hc⟩ := h
  have h1 : ((loadRestructure struc).dump).children
      = dumpGos (loadRestructure struc).rows
          (TreeNode.compileChildren "" "" none struc).1 := rfl
  rw [dumpGos_eq_map, compileChildren_fst_map] at h1
  refine ⟨dumpGo (loadRestructure struc).rows
    ((TreeNode.compileGo ("" ++ "" ++ n.iid)
      (if n.checked = none then none else n.checked) n).1), ?_, ?_⟩
  · rw [h1]
    exact List.mem_map.mpr ⟨_, List.mem_map.mpr ⟨n, hn, rfl⟩, rfl⟩
  · exact dumpGo_children_ne (compileGo_children_ne hc)

/-- The one-sector structure `C(D)` used as the concrete C4 input. -/
def demoC4 : List TreeNode :=
  [TreeNode.plain "C" "" [TreeNode.plain "D" "" []]]

theorem load_dump_attribute_error_witness :
    (∃ n ∈ demoC4, ¬(n.children = [])) ∧
    loadFreshNoRestructure (((loadRestructure demoC4).dump).children) =
      .error () :=
  ⟨⟨TreeNode.plain "C" "" [TreeNode.plain "D" "" []],
    List.mem_cons_self _ _, fun h => List.cons_ne_nil _ _ h⟩,
   load_dump_attribute_error demoC4
    ⟨TreeNode.plain "C" "" [TreeNode.plain "D" "" []],
     List.mem_cons_self _ _, fun h => List.cons_ne_nil _ _ h⟩⟩

/-! ## C7: open_socket address selection -/

theorem openSocketGo_ok (bl : String × Nat → TkServer.BindOutcome)
    (a : String × Nat) (rest : List (String × Nat)) :
    ∀ pre : List (String × Nat), (∀ x ∈ pre, bl x = .fail 98) →
      bl a = .ok → ∀ st : TkServer.ServerState,
      TkServer.openSocketGo bl st (pre ++ a :: rest) =
        ({ sock := some a, server_address := some a }, .opened a)
  | [], _, hok, st => by
    simp only [List.nil_append, TkServer.openSocketGo, hok]
  | p :: ps, hpre, hok, st => by
    have hp := hpre p (List.mem_cons_self _ _)
    simp only [List.cons_append, TkServer.openSocketGo, hp, if_pos rfl]
    exact openSocketGo_ok bl a rest ps
      (fun x hx => hpre x (List.mem_cons_of_mem _ hx)) hok _

theorem openSocketGo_raised (bl : String × Nat → TkServer.BindOutcome)
    (a : String × Nat) (rest : List (String × Nat)) (e : Nat)
    (hne : ¬(e = 98)) :
    ∀ pre : List (String × Nat), (∀ x ∈ pre, bl x = .fail 98) →
      bl a = .fail e → ∀ st : TkServer.ServerState,
      TkServer.openSocketGo bl st (pre ++ a :: rest) =
        ({ st with sock := some a }, .raised e)
  | [], _, hfa, st => by
    simp only [List.nil_append, TkServer.openSocketGo, hfa, if_neg hne]
  | p :: ps, hpre, hfa, st => by
    have hp := hpre p (List.mem_cons_self _ _)
    simp only [List.cons_append, TkServer.openSocketGo, hp, if_pos rfl]
    exact openSocketGo_raised bl a rest e hne ps
      (fun x hx => hpre x (List.mem_cons_of_mem _ hx)) hfa _

theorem openSocketGo_exhausted (bl : String × Nat → TkServer.BindOutcome) :
    ∀ pool : List (String × Nat), (∀ x ∈ pool, bl x = .fail 98) →
      ∀ st : TkServer.ServerState,
      TkServer.openSocketGo bl st pool =
        ({ sock := none, server_address := none }, .exhausted)
  | [], _, st => rfl
  | p :: ps, hall, st => by
    have hp := hall p (List.mem_cons_self _ _)
    simp only [TkServer.openSocketGo, hp, if_pos rfl]
    exact openSocketGo_exhausted bl ps
      (fun x hx => hall x (List.mem_cons_of_mem _ hx)) _

/-- **C7** (confirmed).  `open_socket` walks the address pool in order:
if every candidate before `a` fails with errno 98 and `a` binds, the
call stores `a` as socket and server_address and returns it (first
success wins); if `a` instead fails with an errno other than 98, that
error propagates immediately (the fresh socket for `a` is still
assigned, no address is stored); and if every candidate of a non-empty
pool fails with errno 98, the socket is cleaned up (both attributes
cleared) and the distinguished address-exhausted error (errno 98) is
raised. -/
theorem open_socket_address_selection (pool : List (String × Nat))
    (bl : String × Nat → TkServer.BindOutcome)
    (st : TkServer.ServerState) :
    (∀ pre a rest, pool = pre ++ a :: rest →
      (∀ x ∈ pre, bl x = .fail 98) → bl a = .ok →
      TkServer.open_socket pool bl st =
        ({ sock := some a, server_address := some a }, .opened a)) ∧
    (∀ pre a rest e, pool = pre ++ a :: rest →
      (∀ x ∈ pre, bl x = .fail 98) → bl a = .fail e → ¬(e = 98) →
      TkServer.open_socket pool bl st =
        ({ st with sock := some a }, .raised e)) ∧
    (¬(pool = []) → (∀ x ∈ pool, bl x = .fail 98) →
      TkServer.open_socket pool bl st =
        ({ sock := none, server_address := none }, .exhausted)) := by
  refine ⟨?_, ?_, ?_⟩
  · intro pre a rest hsplit hpre hok
    subst hsplit
    rw [TkServer.open_socket, if_neg (by simp)]
    exact openSocketGo_ok bl a rest pre hpre hok st
  · intro pre a rest e hsplit hpre hfa hne
    subst hsplit
    rw [TkServer.open_socket, if_neg (by simp)]
    exact openSocketGo_raised bl a rest e hne pre hpre hfa st
  · intro hne hall
    rw [TkServer.open_socket, if_neg hne]
    exact openSocketGo_exhausted bl pool hall st

/-- A three-address pool where only the second candidate is free. -/
def demoPool : List (String × Nat) := [("h", 1), ("h", 2), ("h", 3)]

/-- Bind outcome map: port 1 is already in use, everything else binds. -/
def demoBL (x : String × Nat) : TkServer.BindOutcome :=
  if x.2 = 1 then .fail 98 else .ok

/-- The fresh server state: no socket, no stored address. -/
def demoSt0 : TkServer.ServerState := ⟨none, none⟩

theorem open_socket_address_selection_witness :
    TkServer.open_socket demoPool demoBL demoSt0 =
      ({ sock := some ("h", 2), server_address := some ("h", 2) },
       .opened ("h", 2)) :=
  (open_socket_address_selection demoPool demoBL demoSt0).1
    [("h", 1)] ("h", 2) [("h", 3)] rfl (by decide) (by decide)

/-! ## C3: toggling the root and get_checked

The spec says checking everything via the root makes `get_checked`
return exactly the leaf set.  In the source, `get_checked` *stops* at a
row carrying a check tag, and after `toggle_check(True, "")` every
top-level row carries one, so the result is exactly the top-level
rows — sectors are reported instead of their leaves. -/

mutual

theorem get_children_iidPath_go :
    ∀ {t : TreeNode} {p : String} {r : TreeNode},
      t.get_children p = some r → r.iidPath = p
  | .mk la va ii ck op tg ip sep cs, p, r => fun h =>
    TreeNode.getChildrenList_iidPath h

theorem TreeNode.getChildrenList_iidPath :
    ∀ {cs : List TreeNode} {p : String} {r : TreeNode},
      TreeNode.getChildrenList cs p = some r → r.iidPath = p
  | [], p, r => fun h => Option.noConfusion h
  | c :: cs, p, r => by
    intro h
    unfold TreeNode.getChildrenList at h
    by_cases hc : c.iidPath = p
    · rw [if_pos hc] at h
      injection h with h2
      rw [← h2]
      exact hc
    · rw [if_neg hc] at h
      cases hd : TreeNode.get_children c p with
      | some x =>
        rw [hd] at h
        injection h with h2
        rw [← h2]
        exact get_children_iidPath_go hd
      | none =>
        rw [hd] at h
        exact TreeNode.getChildrenList_iidPath h

end

theorem TreeNode.getChildrenList_ne_none {p : String} :
    ∀ {cs : List TreeNode} {n : TreeNode}, n ∈ cs → n.iidPath = p →
      ¬(TreeNode.getChildrenList cs p = none)
  | [], n, hn, _ => absurd hn (List.not_mem_nil n)
  | c :: cs, n, hn, hp => by
    unfold TreeNode.getChildrenList
    by_cases hc : c.iidPath = p
    · rw [if_pos hc]
      simp
    · rw [if_neg hc]
      cases hd : TreeNode.get_children c p with
      | some x => simp
      | none =>
        rcases List.mem_cons.mp hn with rfl | hn2
        · exact absurd hp hc
        · exact TreeNode.getChildrenList_ne_none hn2 hp

theorem from_treeitem_iidPath {root : TreeNode} {p : String} (o : Bool)
    (tg : List String) (c : Option Bool)
    (h : ¬(root.get_children p = none) ∨ root.iidPath = p) :
    (root.from_treeitem p o tg c).iidPath = p := by
  by_cases hr : root.iidPath = p
  · simp only [TreeNode.from_treeitem, if_pos hr]
    exact hr
  · rcases h with h | h
    · cases hg : root.get_children p with
      | none => exact absurd hg h
      | some r =>
        simp only [TreeNode.from_treeitem, if_neg hr, hg,
          Option.getD_some]
        show r.iidPath = p
        exact get_children_iidPath_go hg
    · exact absurd h hr

theorem loadRowTrue_iid (isTop : Bool) (n : TreeNode) :
    ((loadRowTrue isTop n).1).iid = n.iidPath := by
  rcases n with ⟨la, va, ii, ck, op, tg, ip, sep, children⟩
  cases children with
  | nil => rfl
  | cons c cs => rfl

theorem loadTopRows_iids :
    ∀ ns : List TreeNode,
      ((loadTopRows ns).1).map Row.iid = ns.map TreeNode.iidPath
  | [] => rfl
  | n :: ns => by
    simp only [loadTopRows, List.map_cons, loadRowTrue_iid,
      loadTopRows_iids ns]

theorem stateChecked_changeCheck (ts : List String) (tag : String)
    (h : tag = TagsConfig.c_check_entry ∨
      tag = TagsConfig.c_check_sector) :
    stateChecked (changeCheckTagList ts tag) = true := by
  have hmem : tag ∈ changeCheckTagList ts tag := by
    unfold changeCheckTagList
    exact mem_addToSet_self _ _
  unfold stateChecked
  rcases h with rfl | rfl
  · simp [hmem]
  · simp [hmem]

theorem getCheckedRows_forceAll (struc : TreeNode) (secs : List String) :
    ∀ rows : Forest,
      getCheckedRows struc (forceRowsAll secs TagsConfig.c_check_entry
          TagsConfig.c_check_sector rows) =
        rows.map (fun r => struc.from_treeitem r.iid r.opened
          (changeCheckTagList r.tags
            (if r.iid ∈ secs then TagsConfig.c_check_sector
             else TagsConfig.c_check_entry)) (some true))
  | [] => rfl
  | r :: rs => by
    rcases r with ⟨i, t, v, tg, o, cs⟩
    have hst := stateChecked_changeCheck tg
      (if i ∈ secs then TagsConfig.c_check_sector
       else TagsConfig.c_check_entry)
      (by
        by_cases h : i ∈ secs
        · rw [if_pos h]
          exact Or.inr rfl
        · rw [if_neg h]
          exact Or.inl rfl)
    simp only [forceRowsAll, forceRowAll, getCheckedRows, getCheckedRow,
      hst, eq_self_iff_true, if_true, List.map_cons,
      List.singleton_append, Row.iid, Row.opened, Row.tags]
    rw [getCheckedRows_forceAll struc secs rs]
    rfl

/-- **C3** (amended).  After compiling and loading any structure and
toggling the root (empty iid path) to checked, `get_checked` returns
one node per *top-level row* — the top sectors and top leaves, by their
iid paths — not the full leaf set; the traversal stops at the first
checked row it meets.  (The original leaf-set claim is refuted by
`toggle_root_leaves_counterexample`.) -/
theorem toggle_root_get_checked_top_rows (ts : List TreeNode) :
    ((((loadRestructure ts).toggle_check (some true) "").1).get_checked).map
        TreeNode.iidPath =
      (((loadRestructure ts).struct).children).map TreeNode.iidPath := by
  have hchild : ((loadRestructure ts).struct).children
      = (TreeNode.compileChildren "" "" none ts).1 := rfl
  have hrows0 : (loadRestructure ts).rows
      = (loadTopRows (TreeNode.compileChildren "" "" none ts).1).1 := rfl
  have hrows : ((((loadRestructure ts).toggle_check (some true) "").1)).rows
      = forceRowsAll ((loadRestructure ts).all_sector_iids)
          TagsConfig.c_check_entry TagsConfig.c_check_sector
          (loadRestructure ts).rows := rfl
  have hsucc : ∀ r ∈ (loadRestructure ts).rows,
      ¬(((loadRestructure ts).struct).get_children r.iid = none) := by
    intro r hr
    rw [hrows0] at hr
    have hmem : r.iid ∈
        ((loadTopRows (TreeNode.compileChildren "" "" none ts).1).1).map
          Row.iid := List.mem_map_of_mem _ hr
    rw [loadTopRows_iids] at hmem
    obtain ⟨n, hn, hni⟩ := List.mem_map.mp hmem
    show ¬(TreeNode.getChildrenList (TreeNode.compileChildren "" "" none ts).1
      r.iid = none)
    exact TreeNode.getChildrenList_ne_none hn hni
  show (getCheckedRows ((loadRestructure ts).struct)
      ((((loadRestructure ts).toggle_check (some true) "").1)).rows).map
        TreeNode.iidPath = _
  rw [hrows, getCheckedRows_forceAll, List.map_map]
  have hcong : ∀ r ∈ (loadRestructure ts).rows,
      (TreeNode.iidPath ∘ fun r =>
        ((loadRestructure ts).struct).from_treeitem r.iid r.opened
          (changeCheckTagList r.tags
            (if r.iid ∈ (loadRestructure ts).all_sector_iids then
              TagsConfig.c_check_sector
             else TagsConfig.c_check_entry)) (some true)) r = Row.iid r := by
    intro r hr
    simp only [Function.comp]
    exact from_treeitem_iidPath _ _ _ (Or.inl (hsucc r hr))
  rw [List.map_congr_left hcong, hrows0, loadTopRows_iids, hchild]

/-- The one-sector tree `C(D, E)` used as the concrete C3 input. -/
def demoC3 : List TreeNode :=
  [TreeNode.plain "C" "" [TreeNode.plain "D" "" [],
    TreeNode.plain "E" "" []]]

/-- **C3**, counterexample to the original claim: toggling the root of
the loaded `C(D, E)` to checked makes `get_checked` report the sector
`C` alone, while the leaf set of the tree is `C.D, C.E`. -/
theorem toggle_root_leaves_counterexample :
    ((((loadRestructure demoC3).toggle_check (some true) "").1).get_checked).map
        TreeNode.iidPath = ["C"] ∧
    (TreeNode.leaves ((loadRestructure demoC3).struct)).map
        TreeNode.iidPath = ["C.D", "C.E"] := by decide

/-! ## C10: at most one check tag and one match tag per row

The invariant holds for the tags the widget itself manages, because
`_change_check_tag` replaces the existing `c-` tag and `_add_match_tag`
merges into the existing `m-` tag.  It is conditional on the caller:
tags supplied on the input TreeNodes pass through `load` untouched, so
an input row carrying `c-` tags of its own violates the claim
(`tag_uniqueness_counterexample`). -/

/-- Every row of the widget, including nested ones, has a well-formed
tag tuple. -/
def RowsTagsOk (w : Forest) : Prop := ∀ x ∈ preorderRows w, TagsOk x.tags

instance (ts : List String) : Decidable (TagsOk ts) := by
  unfold TagsOk
  exact inferInstance

instance (w : Forest) : Decidable (RowsTagsOk w) := by
  unfold RowsTagsOk
  exact inferInstance

theorem isCheckTag_ite {c : Prop} [Decidable c] {t1 t2 : String}
    (h1 : isCheckTag t1 = false) (h2 : isCheckTag t2 = false) :
    isCheckTag (if c then t1 else t2) = false := by
  by_cases h : c <;> simp [h, h1, h2]

theorem isMatchTag_ite {c : Prop} [Decidable c] {t1 t2 : String}
    (h1 : isMatchTag t1 = false) (h2 : isMatchTag t2 = false) :
    isMatchTag (if c then t1 else t2) = false := by
  by_cases h : c <;> simp [h, h1, h2]

theorem isMatchTag_aggTag (w : Forest) (p : String) :
    isMatchTag (aggTag w p) = false :=
  isMatchTag_ite (by decide) (isMatchTag_ite (by decide) (by decide))

theorem RowsTagsOk_toggleParentsUp :
    ∀ (chain : List String) (w : Forest) (tag : String),
      isMatchTag tag = false → RowsTagsOk w →
      RowsTagsOk (toggleParentsUp w tag chain)
  | [], w, tag, _, h => h
  | i :: rest, w, tag, htag, h => by
    have h1 : RowsTagsOk
        (updTagsRows i (fun ts => changeCheckTagList ts tag) w) :=
      allTags_updTagsRows TagsOk i _
        (fun ts hts => TagsOk_changeCheckTagList hts htag) w h
    cases rest with
    | nil => exact h1
    | cons parent rest2 =>
      exact RowsTagsOk_toggleParentsUp (parent :: rest2) _ _
        (isMatchTag_aggTag _ parent) h1

theorem RowsTagsOk_forceRowsAll {secs : List String} {tagE tagS : String}
    (hE : isMatchTag tagE = false) (hS : isMatchTag tagS = false)
    {w : Forest} (h : RowsTagsOk w) :
    RowsTagsOk (forceRowsAll secs tagE tagS w) :=
  allTags_forceRowsAll TagsOk secs tagE tagS
    (fun ts hts => ⟨TagsOk_changeCheckTagList hts hE,
      TagsOk_changeCheckTagList hts hS⟩) w h

theorem RowsTagsOk_toggleChildrenOp {w : Forest} {iidv : String}
    {secs : List String} {tagE tagS : String}
    (hE : isMatchTag tagE = false) (hS : isMatchTag tagS = false)
    (h : RowsTagsOk w) :
    RowsTagsOk (toggleChildrenOp w iidv secs tagE tagS) := by
  unfold toggleChildrenOp
  by_cases hi : iidv = ""
  · rw [if_pos hi]
    exact RowsTagsOk_forceRowsAll hE hS h
  · rw [if_neg hi]
    refine allTags_mapRowsAt TagsOk iidv _ ?_ w h
    intro r hall x hx
    rcases r with ⟨i, t, v, tg, o, cs⟩
    simp only [forceBelow, preorderRow, List.mem_cons] at hx
    rcases hx with rfl | hx
    · simpa [Row.tags] using hall _ (preorder_row_self i t v tg o cs)
    · exact allTags_forceRowsAll TagsOk secs tagE tagS
        (fun ts hts => ⟨TagsOk_changeCheckTagList hts hE,
          TagsOk_changeCheckTagList hts hS⟩) cs
        (fun y hy => hall y (preorder_row_child hy)) x hx

theorem RowsTagsOk_toggle_check (st : SelectTree) (chk : Option Bool)
    (p : String) (h : RowsTagsOk st.rows) :
    RowsTagsOk ((st.toggle_check chk p).1).rows := by
  have he : isMatchTag TagsConfig.c_check_entry = false := by decide
  have hue : isMatchTag TagsConfig.c_uncheck_entry = false := by decide
  have hs : isMatchTag TagsConfig.c_check_sector = false := by decide
  have hus : isMatchTag TagsConfig.c_uncheck_sector = false := by decide
  unfold SelectTree.toggle_check
  by_cases hp : p = ""
  · rw [if_pos hp]
    show RowsTagsOk (toggleChildrenOp st.rows "" st.all_sector_iids _ _)
    exact RowsTagsOk_toggleChildrenOp (isMatchTag_ite he hue)
      (isMatchTag_ite hs hus) h
  · rw [if_neg hp]
    cases hpath : pathToRow? p st.rows with
    | none =>
      simp only [hpath]
      show RowsTagsOk (toggleChildrenOp st.rows p st.all_sector_iids _ _)
      exact RowsTagsOk_toggleChildrenOp (isMatchTag_ite he hue)
        (isMatchTag_ite hs hus) h
    | some chain =>
      simp only [hpath]
      show RowsTagsOk (toggleChildrenOp
        (toggleParentsUp st.rows _ chain.reverse) p st.all_sector_iids _ _)
      exact RowsTagsOk_toggleChildrenOp (isMatchTag_ite he hue)
        (isMatchTag_ite hs hus)
        (RowsTagsOk_toggleParentsUp _ _ _
          (isMatchTag_ite (isMatchTag_ite hs he)
            (isMatchTag_ite hus hue)) h)

theorem RowsTagsOk_addMatchTagAt {w : Forest} {i tag : String}
    (hc : isCheckTag tag = false) (h : RowsTagsOk w) :
    RowsTagsOk (addMatchTagAt w i tag) :=
  allTags_updTagsRows TagsOk i _
    (fun ts hts => TagsOk_addMatchTagList hts hc) w h

theorem RowsTagsOk_hintFold :
    ∀ (anc : List String) (w : Forest), RowsTagsOk w →
      RowsTagsOk (anc.foldl
        (fun wacc p => addMatchTagAt wacc p TagsConfig.m_hint_sector) w)
  | [], w, h => h
  | a :: anc, w, h =>
    RowsTagsOk_hintFold anc _ (RowsTagsOk_addMatchTagAt (by decide) h)

theorem RowsTagsOk_searchApply (secs : List String) (m : String → Bool) :
    ∀ (l : List (Row × List String)) (w : Forest), RowsTagsOk w →
      RowsTagsOk (searchApply secs m w l).1
  | [], w, h => h
  | (r, anc) :: rest, w, h => by
    cases hm : m r.text with
    | true =>
      have h1 : RowsTagsOk (addMatchTagAt w r.iid
          (if r.iid ∈ secs then TagsConfig.m_match_sector
           else TagsConfig.m_match_entry)) :=
        RowsTagsOk_addMatchTagAt
          (isCheckTag_ite (by decide) (by decide)) h
      have h2 := RowsTagsOk_hintFold anc _ h1
      have h3 := RowsTagsOk_searchApply secs m rest _ h2
      simp only [searchApply, hm, if_true]
      exact h3
    | false =>
      have h3 := RowsTagsOk_searchApply secs m rest w h
      simp only [searchApply, hm, Bool.false_eq_true, if_false]
      exact h3

theorem RowsTagsOk_rmMatchRows {w : Forest} (h : RowsTagsOk w) :
    RowsTagsOk (rmMatchRows w) :=
  allTags_rmMatchRows TagsOk
    (fun ts hts => TagsOk_resetMatchTagList hts) w h

/-! ### load establishes the invariant (for clean caller tags) -/

theorem t_entry_flags :
    isCheckTag TagsConfig.t_entry = false ∧
    isMatchTag TagsConfig.t_entry = false := by decide

theorem leafCheckTag_counts (b : Bool) :
    cTagCount [if b then TagsConfig.c_check_entry
               else TagsConfig.c_uncheck_entry] = 1 ∧
    mTagCount [if b then TagsConfig.c_check_entry
               else TagsConfig.c_uncheck_entry] = 0 := by
  cases b <;> decide

theorem typeTag_flags (isTop : Bool) :
    isCheckTag (if isTop then TagsConfig.t_top_sector
                else TagsConfig.t_sub_sector) = false ∧
    isMatchTag (if isTop then TagsConfig.t_top_sector
                else TagsConfig.t_sub_sector) = false := by
  cases isTop <;> decide

theorem sectorCheckTag_flags (ck : Option Bool) :
    isCheckTag (match ck with
      | none => TagsConfig.c_ccstate_sector
      | some true => TagsConfig.c_check_sector
      | some false => TagsConfig.c_uncheck_sector) = true ∧
    isMatchTag (match ck with
      | none => TagsConfig.c_ccstate_sector
      | some true => TagsConfig.c_check_sector
      | some false => TagsConfig.c_uncheck_sector) = false := by
  rcases ck with _ | b
  · decide
  · cases b <;> decide

theorem TagsOk_append3 {tg : List String} (h0c : cTagCount tg = 0)
    (h0m : mTagCount tg = 0) {u v : List String} (huc : cTagCount u = 0)
    (hum : mTagCount u = 0) (hvc : cTagCount v = 1)
    (hvm : mTagCount v = 0) : TagsOk ((tg ++ u) ++ v) := by
  unfold TagsOk cTagCount mTagCount at *
  simp only [List.countP_append]
  omega

theorem TagsOk_append_pair {tg : List String} (h0c : cTagCount tg = 0)
    (h0m : mTagCount tg = 0) {a b : String} (hac : isCheckTag a = false)
    (ham : isMatchTag a = false) (hbc : isCheckTag b = true)
    (hbm : isMatchTag b = false) : TagsOk (tg ++ [a, b]) := by
  unfold TagsOk cTagCount mTagCount at *
  rw [List.countP_append, List.countP_append]
  constructor
  · have h2 : List.countP isCheckTag [a, b] = 1 := by
      simp [List.countP_cons, List.countP_nil, hac, hbc]
    omega
  · have h2 : List.countP isMatchTag [a, b] = 0 := by
      simp [List.countP_cons, List.countP_nil, ham, hbm]
    omega

mutual

theorem loadRowTrue_tagsOk (isTop : Bool) :
    ∀ t : TreeNode, (∀ n ∈ TreeNode.allNodes t,
        cTagCount n.tags = 0 ∧ mTagCount n.tags = 0) →
      ∀ x ∈ preorderRow (loadRowTrue isTop t).1, TagsOk x.tags
  | .mk la va ii ck op tg ip sep children => by
    intro hclean x hx
    have hself := hclean (TreeNode.mk la va ii ck op tg ip sep children)
      (by rw [TreeNode.allNodes_eq]; exact List.mem_cons_self _ _)
    have hselfc : cTagCount tg = 0 := hself.1
    have hselfm : mTagCount tg = 0 := hself.2
    cases children with
    | nil =>
      simp only [loadRowTrue, preorderRow, preorderRows,
        List.mem_cons] at hx
      rcases hx with rfl | hx
      · simp only [Row.tags]
        exact TagsOk_append3 hselfc hselfm (by decide) (by decide)
          (leafCheckTag_counts (ck.getD false)).1
          (leafCheckTag_counts (ck.getD false)).2
      · cases hx
    | cons c cs =>
      simp only [loadRowTrue, preorderRow, List.mem_cons] at hx
      rcases hx with rfl | hx
      · simp only [Row.tags]
        exact TagsOk_append_pair hselfc hselfm
          (typeTag_flags isTop).1 (typeTag_flags isTop).2
          (sectorCheckTag_flags ck).1 (sectorCheckTag_flags ck).2
      · exact loadRowsTrue_tagsOk (c :: cs)
          (fun n hn => hclean n
            (by rw [TreeNode.allNodes_eq]
                exact List.mem_cons_of_mem _ hn)) x hx

theorem loadRowsTrue_tagsOk :
    ∀ ns : List TreeNode, (∀ n ∈ TreeNode.allNodesList ns,
        cTagCount n.tags = 0 ∧ mTagCount n.tags = 0) →
      ∀ x ∈ preorderRows (loadRowsTrue ns).1, TagsOk x.tags
  | [] => by
    intro _ x hx
    cases hx
  | n :: ns => by
    intro hclean x hx
    simp only [loadRowsTrue, preorderRows, List.mem_append] at hx
    rcases hx with hx | hx
    · exact loadRowTrue_tagsOk false n
        (fun m hm => hclean m
          (by simp only [TreeNode.allNodesList, List.mem_append]
              exact Or.inl hm)) x hx
    · exact loadRowsTrue_tagsOk ns
        (fun m hm => hclean m
          (by simp only [TreeNode.allNodesList, List.mem_append]
              exact Or.inr hm)) x hx

end

theorem loadTopRows_tagsOk :
    ∀ ns : List TreeNode, (∀ n ∈ TreeNode.allNodesList ns,
        cTagCount n.tags = 0 ∧ mTagCount n.tags = 0) →
      ∀ x ∈ preorderRows (loadTopRows ns).1, TagsOk x.tags
  | [] => by
    intro _ x hx
    cases hx
  | n :: ns => by
    intro hclean x hx
    simp only [loadTopRows, preorderRows, List.mem_append] at hx
    rcases hx with hx | hx
    · exact loadRowTrue_tagsOk true n
        (fun m hm => hclean m
          (by simp only [TreeNode.allNodesList, List.mem_append]
              exact Or.inl hm)) x hx
    · exact loadTopRows_tagsOk ns
        (fun m hm => hclean m
          (by simp only [TreeNode.allNodesList, List.mem_append]
              exact Or.inr hm)) x hx

mutual

theorem compileGo_tags_sub (p : String) (c : Option Bool) :
    ∀ t : TreeNode, ∀ x ∈ TreeNode.allNodes (TreeNode.compileGo p c t).1,
      ∃ n ∈ TreeNode.allNodes t, x.tags = n.tags
  | .mk la va ii ck op tg ip sep children => by
    intro x hx
    rw [TreeNode.compileGo_eq, TreeNode.allNodes_eq] at hx
    rcases List.mem_cons.mp hx with rfl | hx
    · exact ⟨TreeNode.mk la va ii ck op tg ip sep children,
        by rw [TreeNode.allNodes_eq]; exact List.mem_cons_self _ _, rfl⟩
    · obtain ⟨n, hn, he⟩ := compileChildren_tags_sub p sep c children x hx
      exact ⟨n,
        by rw [TreeNode.allNodes_eq]; exact List.mem_cons_of_mem _ hn, he⟩

theorem compileChildren_tags_sub (pp sep : String) (c : Option Bool) :
    ∀ cs : List TreeNode,
      ∀ x ∈ TreeNode.allNodesList (TreeNode.compileChildren pp sep c cs).1,
        ∃ n ∈ TreeNode.allNodesList cs, x.tags = n.tags
  | [] => by intro x hx; cases hx
  | c0 :: cs => by
    intro x hx
    rw [TreeNode.compileChildren_cons] at hx
    simp only [TreeNode.allNodesList, List.mem_append] at hx
    rcases hx with hx | hx
    · obtain ⟨n, hn, he⟩ := compileGo_tags_sub _ _ c0 x hx
      exact ⟨n,
        by simp only [TreeNode.allNodesList, List.mem_append]
           exact Or.inl hn, he⟩
    · obtain ⟨n, hn, he⟩ := compileChildren_tags_sub pp sep c cs x hx
      exact ⟨n,
        by simp only [TreeNode.allNodesList, List.mem_append]
           exact Or.inr hn, he⟩

end

theorem RowsTagsOk_loadRestructure (ts : List TreeNode)
    (hclean : ∀ n ∈ TreeNode.allNodesList ts,
      cTagCount n.tags = 0 ∧ mTagCount n.tags = 0) :
    RowsTagsOk (loadRestructure ts).rows := by
  have hcc : ∀ n ∈ TreeNode.allNodesList
      (TreeNode.compileChildren "" "" none ts).1,
      cTagCount n.tags = 0 ∧ mTagCount n.tags = 0 := by
    intro n hn
    obtain ⟨n0, hn0, he⟩ := compileChildren_tags_sub "" "" none ts n hn
    rw [he]
    exact hclean n0 hn0
  show ∀ x ∈ preorderRows
    (loadTopRows (TreeNode.compileChildren "" "" none ts).1).1,
    TagsOk x.tags
  exact loadTopRows_tagsOk _ hcc

/-- **C10** (amended).  When the caller-supplied structure carries no
`c-` or `m-` tags of its own, every row of the loaded widget holds at
most one check tag and at most one match tag, and the public mutators
(`toggle_check`, `toggle_single_check`, `search`, `remove_match_tags`)
all preserve this invariant on any widget state satisfying it.  (For
caller structures that do carry `c-`/`m-` tags the invariant fails at
load, see `tag_uniqueness_counterexample`.) -/
theorem tag_uniqueness_invariant (ts : List TreeNode)
    (hclean : ∀ n ∈ TreeNode.allNodesList ts,
      cTagCount n.tags = 0 ∧ mTagCount n.tags = 0) :
    RowsTagsOk (loadRestructure ts).rows ∧
    (∀ st : SelectTree, RowsTagsOk st.rows →
      (∀ chk p, RowsTagsOk ((st.toggle_check chk p).1).rows) ∧
      (∀ chk p, RowsTagsOk ((st.toggle_single_check chk p).1).rows) ∧
      (∀ m, RowsTagsOk ((st.search m).1).rows) ∧
      RowsTagsOk (st.remove_match_tags).rows) := by
  refine ⟨RowsTagsOk_loadRestructure ts hclean, ?_⟩
  intro st h
  refine ⟨fun chk p => RowsTagsOk_toggle_check st chk p h,
    fun chk p => ?_, fun m => ?_, RowsTagsOk_rmMatchRows h⟩
  · exact RowsTagsOk_toggle_check _ _ _
      (RowsTagsOk_toggle_check st (some false) "" h)
  · exact RowsTagsOk_searchApply st.all_sector_iids m _ _
      (RowsTagsOk_rmMatchRows h)

/-- The clean two-row structure used as the concrete C10 input. -/
def demoC10 : List TreeNode :=
  [TreeNode.plain "S" "" [TreeNode.plain "a" "" []]]

theorem tag_uniqueness_invariant_witness :
    (∀ n ∈ TreeNode.allNodesList demoC10,
      cTagCount n.tags = 0 ∧ mTagCount n.tags = 0) ∧
    RowsTagsOk (loadRestructure demoC10).rows :=
  ⟨by decide, (tag_uniqueness_invariant demoC10 (by decide)).1⟩

/-- **C10**, counterexample to the unconditional claim: a caller
structure whose node already carries the two tags `c-a`, `c-b` loads
into a row with three check tags. -/
theorem tag_uniqueness_counterexample :
    ¬ RowsTagsOk
      (loadRestructure
        [TreeNode.plainTags "A" "" ["c-a", "c-b"] []]).rows := by decide

/-! ## C6: idempotence of search

`search` first strips one `m-` tag per row, then re-tags.  On rows with
at most one `m-` tag the strip restores the pre-search tags exactly, so
a second identical search reproduces the same state.  A caller-supplied
row with two `m-` tags breaks this: each search removes a different
one. -/

theorem removeFirstWith_append_zero {p : String → Bool} :
    ∀ {ts : List String} (l : List String), ts.countP p = 0 →
      removeFirstWith p (ts ++ l) = ts ++ removeFirstWith p l
  | [], l, _ => rfl
  | t :: ts, l, h => by
    have hc := h
    rw [List.countP_cons] at hc
    have hpt : p t = false := by
      cases hp : p t
      · rfl
      · rw [hp] at hc
        simp at hc
    have ht : ts.countP p = 0 := by
      rw [hpt] at hc
      simpa using hc
    simp only [List.cons_append, removeFirstWith, hpt,
      Bool.false_eq_true, if_false]
    exact congrArg (List.cons t) (removeFirstWith_append_zero l ht)

theorem mTagCount_reset (ts : List String) :
    mTagCount (resetMatchTagList ts) = mTagCount ts - 1 := by
  unfold mTagCount resetMatchTagList
  exact countP_removeFirstWith isMatchTag ts

theorem mTagCount_addMatchTagList_le {ts : List String} {tag : String}
    (h : mTagCount ts ≤ 1) : mTagCount (addMatchTagList ts tag) ≤ 1 := by
  cases hf : ts.find? isMatchTag with
  | none =>
    have hred : addMatchTagList ts tag = addToSet ts tag := by
      unfold addMatchTagList
      rw [hf]
    rw [hred]
    have h0 : mTagCount ts = 0 := by
      unfold mTagCount
      rw [List.countP_eq_zero]
      intro a ha
      simpa using List.find?_eq_none.mp hf a ha
    unfold addToSet
    by_cases hmem : tag ∈ ts
    · rw [if_pos hmem]
      omega
    · rw [if_neg hmem]
      unfold mTagCount at *
      rw [List.countP_append]
      have h1 : List.countP isMatchTag [tag] ≤ 1 := by
        cases hmt : isMatchTag tag <;>
          simp [List.countP_cons, List.countP_nil, hmt]
      omega
  | some t =>
    have hred : addMatchTagList ts tag
        = addToSet (removeFirstWith isMatchTag ts)
            (mergeMatchTag t tag) := by
      unfold addMatchTagList
      rw [hf]
    rw [hred]
    have hrm : (removeFirstWith isMatchTag ts).countP isMatchTag
        = ts.countP isMatchTag - 1 := countP_removeFirstWith isMatchTag ts
    unfold addToSet
    by_cases hmem : mergeMatchTag t tag ∈ removeFirstWith isMatchTag ts
    · rw [if_pos hmem]
      unfold mTagCount at *
      omega
    · rw [if_neg hmem]
      unfold mTagCount at *
      rw [List.countP_append]
      have h1 : List.countP isMatchTag [mergeMatchTag t tag] ≤ 1 := by
        cases hmt : isMatchTag (mergeMatchTag t tag) <;>
          simp [List.countP_cons, List.countP_nil, hmt]
      omega

theorem reset_addMatchTagList {ts : List String} {tag : String}
    (hcount : mTagCount ts ≤ 1) (hmt : isMatchTag tag = true) :
    resetMatchTagList (addMatchTagList ts tag) = resetMatchTagList ts := by
  cases hf : ts.find? isMatchTag with
  | none =>
    have hred : addMatchTagList ts tag = addToSet ts tag := by
      unfold addMatchTagList
      rw [hf]
    rw [hred]
    have h0 : ∀ a ∈ ts, isMatchTag a = false := by
      intro a ha
      simpa using List.find?_eq_none.mp hf a ha
    have h0c : ts.countP isMatchTag = 0 :=
      List.countP_eq_zero.mpr fun a ha => by simp [h0 a ha]
    have hmem : ¬(tag ∈ ts) := by
      intro hm2
      have h2 := h0 tag hm2
      rw [hmt] at h2
      exact Bool.noConfusion h2
    unfold addToSet
    rw [if_neg hmem]
    unfold resetMatchTagList
    rw [removeFirstWith_append_zero [tag] h0c,
      removeFirstWith_eq_self h0c]
    simp [removeFirstWith, hmt]
  | some t =>
    have hred : addMatchTagList ts tag
        = addToSet (removeFirstWith isMatchTag ts)
            (mergeMatchTag t tag) := by
      unfold addMatchTagList
      rw [hf]
    rw [hred]
    have hc1 : (removeFirstWith isMatchTag ts).countP isMatchTag = 0 := by
      rw [countP_removeFirstWith]
      unfold mTagCount at hcount
      omega
    have hmergem : isMatchTag (mergeMatchTag t tag) = true :=
      isMatchTag_mergeMatchTag t tag
    have hmem : ¬(mergeMatchTag t tag ∈ removeFirstWith isMatchTag ts) := by
      intro hm2
      have h2 := List.countP_eq_zero.mp hc1 _ hm2
      exact h2 hmergem
    unfold addToSet
    rw [if_neg hmem]
    unfold resetMatchTagList
    rw [removeFirstWith_append_zero [mergeMatchTag t tag] hc1]
    simp [removeFirstWith, hmergem]

theorem reset_reset {ts : List String} (h : mTagCount ts ≤ 1) :
    resetMatchTagList (resetMatchTagList ts) = resetMatchTagList ts := by
  unfold resetMatchTagList
  apply removeFirstWith_eq_self
  rw [countP_removeFirstWith]
  unfold mTagCount at h
  omega

/-- Rows with at most one match tag each. -/
def RowsMOk (w : Forest) : Prop :=
  ∀ x ∈ preorderRows w, mTagCount x.tags ≤ 1

instance (w : Forest) : Decidable (RowsMOk w) := by
  unfold RowsMOk
  exact inferInstance

mutual

theorem rmMatchRow_updAdd (i tag : String) (hmt : isMatchTag tag = true) :
    ∀ r : Row, (∀ x ∈ preorderRow r, mTagCount x.tags ≤ 1) →
      rmMatchRow (updTagsRow i (fun ts => addMatchTagList ts tag) r)
        = rmMatchRow r
  | .mk ri t v tg o cs => by
    intro hall
    have htg : mTagCount tg ≤ 1 := by
      simpa [Row.tags] using hall _ (preorder_row_self ri t v tg o cs)
    have hcs : ∀ y ∈ preorderRows cs, mTagCount y.tags ≤ 1 :=
      fun y hy => hall y (preorder_row_child hy)
    simp only [updTagsRow, rmMatchRow]
    rw [rmMatchRows_updAdd i tag hmt cs hcs]
    by_cases h : ri = i
    · rw [if_pos h, reset_addMatchTagList htg hmt]
    · rw [if_neg h]

theorem rmMatchRows_updAdd (i tag : String)
    (hmt : isMatchTag tag = true) :
    ∀ w : Forest, (∀ x ∈ preorderRows w, mTagCount x.tags ≤ 1) →
      rmMatchRows (updTagsRows i (fun ts => addMatchTagList ts tag) w)
        = rmMatchRows w
  | [] => fun _ => rfl
  | r :: rs => by
    intro hall
    simp only [updTagsRows, rmMatchRows]
    rw [rmMatchRow_updAdd i tag hmt r
        (fun y hy => hall y (preorder_cons_left hy)),
      rmMatchRows_updAdd i tag hmt rs
        (fun y hy => hall y (preorder_cons_right hy))]

end

mutual

theorem rmMatchRow_idem :
    ∀ r : Row, (∀ x ∈ preorderRow r, mTagCount x.tags ≤ 1) →
      rmMatchRow (rmMatchRow r) = rmMatchRow r
  | .mk ri t v tg o cs => by
    intro hall
    have htg : mTagCount tg ≤ 1 := by
      simpa [Row.tags] using hall _ (preorder_row_self ri t v tg o cs)
    simp only [rmMatchRow]
    rw [reset_reset htg,
      rmMatchRows_idem cs (fun y hy => hall y (preorder_row_child hy))]

theorem rmMatchRows_idem :
    ∀ w : Forest, (∀ x ∈ preorderRows w, mTagCount x.tags ≤ 1) →
      rmMatchRows (rmMatchRows w) = rmMatchRows w
  | [] => fun _ => rfl
  | r :: rs => by
    intro hall
    simp only [rmMatchRows]
    rw [rmMatchRow_idem r (fun y hy => hall y (preorder_cons_left hy)),
      rmMatchRows_idem rs (fun y hy => hall y (preorder_cons_right hy))]

end

theorem RowsMOk_rm {w : Forest} (h : RowsMOk w) :
    RowsMOk (rmMatchRows w) :=
  allTags_rmMatchRows (fun ts => mTagCount ts ≤ 1)
    (fun ts hts => by
      have h2 : mTagCount (resetMatchTagList ts) = mTagCount ts - 1 :=
        mTagCount_reset ts
      have h3 : mTagCount ts ≤ 1 := hts
      show mTagCount (resetMatchTagList ts) ≤ 1
      omega) w h

theorem RowsMOk_addMatchTagAt {w : Forest} {i tag : String}
    (h : RowsMOk w) : RowsMOk (addMatchTagAt w i tag) :=
  allTags_updTagsRows (fun ts => mTagCount ts ≤ 1) i _
    (fun ts hts => mTagCount_addMatchTagList_le hts) w h

theorem isMatchTag_ite_true {c : Prop} [Decidable c] {t1 t2 : String}
    (h1 : isMatchTag t1 = true) (h2 : isMatchTag t2 = true) :
    isMatchTag (if c then t1 else t2) = true := by
  by_cases h : c <;> simp [h, h1, h2]

theorem hintFold_rm :
    ∀ (anc : List String) (w : Forest), RowsMOk w →
      rmMatchRows (anc.foldl
        (fun wacc p => addMatchTagAt wacc p TagsConfig.m_hint_sector) w)
        = rmMatchRows w ∧
      RowsMOk (anc.foldl
        (fun wacc p => addMatchTagAt wacc p TagsConfig.m_hint_sector) w)
  | [], w, h => ⟨rfl, h⟩
  | a :: anc, w, h => by
    have h1r : rmMatchRows (addMatchTagAt w a TagsConfig.m_hint_sector)
        = rmMatchRows w :=
      rmMatchRows_updAdd a _ (by decide) w h
    have h1c : RowsMOk (addMatchTagAt w a TagsConfig.m_hint_sector) :=
      RowsMOk_addMatchTagAt h
    have hrec := hintFold_rm anc _ h1c
    constructor
    · rw [List.foldl_cons, hrec.1, h1r]
    · rw [List.foldl_cons]
      exact hrec.2

theorem searchApply_rm (secs : List String) (m : String → Bool) :
    ∀ (l : List (Row × List String)) (w : Forest), RowsMOk w →
      rmMatchRows (searchApply secs m w l).1 = rmMatchRows w ∧
      RowsMOk (searchApply secs m w l).1
  | [], w, h => ⟨rfl, h⟩
  | (r, anc) :: rest, w, h => by
    cases hm : m r.text with
    | false =>
      simp only [searchApply, hm, Bool.false_eq_true, if_false]
      exact searchApply_rm secs m rest w h
    | true =>
      simp only [searchApply, hm, if_true]
      have h1r : rmMatchRows (addMatchTagAt w r.iid
          (if r.iid ∈ secs then TagsConfig.m_match_sector
           else TagsConfig.m_match_entry)) = rmMatchRows w :=
        rmMatchRows_updAdd _ _
          (isMatchTag_ite_true (by decide) (by decide)) w h
      have h1c : RowsMOk (addMatchTagAt w r.iid
          (if r.iid ∈ secs then TagsConfig.m_match_sector
           else TagsConfig.m_match_entry)) := RowsMOk_addMatchTagAt h
      have h2 := hintFold_rm anc _ h1c
      have h3 := searchApply_rm secs m rest _ h2.2
      constructor
      · rw [h3.1, h2.1, h1r]
      · exact h3.2

/-- **C6** (amended).  On a widget state whose rows each carry at most
one `m-` tag — what load produces and every operation preserves —
`search` is idempotent: running the same search twice returns exactly
the same state and result as running it once, because the initial
purge of match annotations restores the pre-search tags.  (For rows
with two or more `m-` tags the purge removes only one and idempotence
fails, see `search_idempotent_counterexample`.) -/
theorem search_idempotent (st : SelectTree) (m : String → Bool)
    (h : RowsMOk st.rows) :
    ((st.search m).1).search m = st.search m := by
  rcases st with ⟨rows, tsi, ssi, ei, struc⟩
  have h0 : RowsMOk (rmMatchRows rows) := RowsMOk_rm h
  have hidem : rmMatchRows (rmMatchRows rows) = rmMatchRows rows :=
    rmMatchRows_idem rows h
  have hsa := searchApply_rm (tsi ++ ssi) m
    (preAncRows [] (rmMatchRows rows)) (rmMatchRows rows) h0
  have key : rmMatchRows (searchApply (tsi ++ ssi) m (rmMatchRows rows)
      (preAncRows [] (rmMatchRows rows))).1 = rmMatchRows rows := by
    rw [hsa.1, hidem]
  show (SelectTree.mk (searchApply (tsi ++ ssi) m
      (rmMatchRows (searchApply (tsi ++ ssi) m (rmMatchRows rows)
        (preAncRows [] (rmMatchRows rows))).1)
      (preAncRows [] (rmMatchRows (searchApply (tsi ++ ssi) m
        (rmMatchRows rows) (preAncRows [] (rmMatchRows rows))).1))).1
      tsi ssi ei struc,
    (searchApply (tsi ++ ssi) m
      (rmMatchRows (searchApply (tsi ++ ssi) m (rmMatchRows rows)
        (preAncRows [] (rmMatchRows rows))).1)
      (preAncRows [] (rmMatchRows (searchApply (tsi ++ ssi) m
        (rmMatchRows rows) (preAncRows [] (rmMatchRows rows))).1))).2)
    = (SelectTree.mk rows tsi ssi ei struc).search m
  rw [key]
  rfl

/-- The clean one-sector widget used as the concrete C6 input. -/
def demoC6 : SelectTree :=
  loadRestructure [TreeNode.plain "S" "" [TreeNode.plain "A" "" []]]

/-- The pattern matching the label `A`. -/
def demoC6m : String → Bool := fun s => s = "A"

theorem search_idempotent_witness :
    RowsMOk demoC6.rows ∧
    ((demoC6.search demoC6m).1).search demoC6m = demoC6.search demoC6m :=
  ⟨by decide, search_idempotent demoC6 demoC6m (by decide)⟩

/-- A widget whose single row carries two caller-supplied match tags. -/
def demoC6bad : SelectTree :=
  loadRestructure
    [TreeNode.plainTags "A" "" ["m-2-sector", "m-3-sector"] []]

/-- **C6**, counterexample to the unconditional claim: on a row with
two `m-` tags the second identical search leaves different tags than
the first (each purge removes a different tag). -/
theorem search_idempotent_counterexample :
    ¬(tagsAt ((((demoC6bad.search (fun _ => false)).1).search
          (fun _ => false)).1).rows "A" =
      tagsAt (((demoC6bad.search (fun _ => false)).1)).rows "A") := by
  decide

/-! ## C5: get_next_match -/

instance (l : List TreeNode) : Decidable (l = []) :=
  match l with
  | [] => isTrue rfl
  | _ :: _ => isFalse (fun h => List.noConfusion h)

instance (o : Option TreeNode) : Decidable (o = none) :=
  match o with
  | none => isTrue rfl
  | some _ => isFalse (fun h => Option.noConfusion h)

/-- The match list in traversal order (`list(reversed(matches))` when
reverse is set, line 676). -/
def effMatches (st : SelectTree) (rev : Bool) : List TreeNode :=
  if rev then st.get_matches.reverse else st.get_matches

/-- The linear iid list in traversal order (line 691). -/
def effMain (st : SelectTree) (rev : Bool) : List String :=
  if rev then st.get_linear_iid_path_list.reverse
  else st.get_linear_iid_path_list

/-- **C5** (confirmed).  `get_next_match` returns False (here
`noMatches`) iff there are zero matches at all; and when matches exist,
the start iid occurs in the traversal-ordered linear list at `idx`, and
no match lies at or after the start in traversal order (the last match
has been passed — the first, under `reverse`), then with
`back_to_begin = false` the call returns None (`reachedEnd`) and with
`back_to_begin = true` it returns the first match of the traversal
order. -/
theorem get_next_match_spec (st : SelectTree) (start : String)
    (rev wrap : Bool) :
    (st.get_next_match start rev wrap = .noMatches ↔
      st.get_matches = []) ∧
    (∀ idx : Nat, ¬(st.get_matches = []) →
      (effMain st rev).findIdx? (fun i => i = start) = some idx →
      (∀ i ∈ (effMain st rev).drop idx,
        ∀ t ∈ effMatches st rev, ¬(t.iidPath = i)) →
      (wrap = false → st.get_next_match start rev wrap = .reachedEnd) ∧
      (wrap = true → ∀ h2 : ¬(effMatches st rev = []),
        st.get_next_match start rev wrap =
          .found ((effMatches st rev).head h2))) := by
  constructor
  · constructor
    · intro h
      cases hm : st.get_matches with
      | nil => rfl
      | cons m0 ms =>
        exfalso
        have hred : st.get_next_match start rev wrap =
            (match (effMain st rev).findIdx? (fun i => i = start) with
             | none => .raised
             | some idx2 =>
               match ((effMain st rev).drop idx2).findSome?
                   (fun i => (((effMatches st rev).map
                     TreeNode.iidPath).findIdx?
                       (fun x => x = i)).bind (effMatches st rev).get?)
                   with
               | some t => .found t
               | none =>
                 if wrap then
                   match (effMatches st rev).head? with
                   | some t => .found t
                   | none => .reachedEnd
                 else .reachedEnd) := by
          unfold SelectTree.get_next_match effMatches effMain
          rw [hm]
        rw [hred] at h
        cases hidx : (effMain st rev).findIdx? (fun i => i = start) with
        | none =>
          simp only [hidx] at h
          exact NextMatch.noConfusion h
        | some idx2 =>
          simp only [hidx] at h
          cases hfs : ((effMain st rev).drop idx2).findSome?
              (fun i => (((effMatches st rev).map
                TreeNode.iidPath).findIdx?
                  (fun x => x = i)).bind (effMatches st rev).get?) with
          | some t =>
            simp only [hfs] at h
            exact NextMatch.noConfusion h
          | none =>
            simp only [hfs] at h
            cases hw : wrap with
            | false =>
              simp only [hw, Bool.false_eq_true, if_false] at h
              exact NextMatch.noConfusion h
            | true =>
              simp only [hw, eq_self_iff_true, if_true] at h
              cases hh : (effMatches st rev).head? with
              | none =>
                simp only [hh] at h
                exact NextMatch.noConfusion h
              | some t =>
                simp only [hh] at h
                exact NextMatch.noConfusion h
    · intro h
      unfold SelectTree.get_next_match
      rw [h]
  · intro idx hne hidx hnomatch
    cases hm : st.get_matches with
    | nil => exact absurd hm hne
    | cons m0 ms =>
      have hred : st.get_next_match start rev wrap =
          (match (effMain st rev).findIdx? (fun i => i = start) with
           | none => .raised
           | some idx2 =>
             match ((effMain st rev).drop idx2).findSome?
                 (fun i => (((effMatches st rev).map
                   TreeNode.iidPath).findIdx?
                     (fun x => x = i)).bind (effMatches st rev).get?)
                 with
             | some t => .found t
             | none =>
               if wrap then
                 match (effMatches st rev).head? with
                 | some t => .found t
                 | none => .reachedEnd
               else .reachedEnd) := by
        unfold SelectTree.get_next_match effMatches effMain
        rw [hm]
      have hnone : ((effMain st rev).drop idx).findSome?
          (fun i => (((effMatches st rev).map TreeNode.iidPath).findIdx?
            (fun x => x = i)).bind (effMatches st rev).get?) = none := by
        rw [List.findSome?_eq_none_iff]
        intro i hi
        have hidxnone : ((effMatches st rev).map TreeNode.iidPath).findIdx?
            (fun x => x = i) = none := by
          rw [List.findIdx?_eq_none_iff]
          intro x hx
          obtain ⟨t, ht, rfl⟩ := List.mem_map.mp hx
          exact decide_eq_false (hnomatch i hi t ht)
        rw [hidxnone]
        rfl
      rw [hred, hidx]
      constructor
      · intro hw
        simp only [hnone, hw, Bool.false_eq_true, if_false]
      · intro hw h2
        have hh : (effMatches st rev).head? =
            some ((effMatches st rev).head h2) := List.head?_eq_head h2
        simp only [hnone, hw, eq_self_iff_true, if_true, hh]

/-- A two-leaf widget in which only `A` matches the search. -/
def demoC5s : SelectTree :=
  ((loadRestructure [TreeNode.plain "A" "" [],
    TreeNode.plain "B" "" []]).search (fun s => s = "A")).1

theorem get_next_match_spec_witness :
    ¬(demoC5s.get_matches = []) ∧
    (effMain demoC5s false).findIdx? (fun i => i = "B") = some 2 ∧
    (∀ i ∈ (effMain demoC5s false).drop 2,
      ∀ t ∈ effMatches demoC5s false, ¬(t.iidPath = i)) ∧
    demoC5s.get_next_match "B" false false = .reachedEnd :=
  ⟨by decide, by decide, by decide,
   ((get_next_match_spec demoC5s "B" false false).2 2 (by decide)
     (by decide) (by decide)).1 rfl⟩

/-! ## C2: get_checked traversal

The spec-side traversal below is written from the spec's words: report
a row whose own tag is checked and stop there, keep descending through
a mixed sector, skip an unchecked one.  The source's `get_checked`
realises exactly this (identifying the reported nodes by their iid
paths).  The spec's middle scenario step is wrong, though: after
toggling `C` on, the still-checked leaf `B` is reported as well, so the
result is `[B, C]`, not `[C]`. -/

mutual

/-- Spec-side selection: the iid paths `get_checked` should report
according to the specification text. -/
def specCheckedRow : Row → List String
  | .mk i _ _ tg _ cs =>
    if stateChecked tg then [i]
    else if TagsConfig.c_ccstate_sector ∈ tg then specCheckedRows cs
    else []

def specCheckedRows : Forest → List String
  | [] => []
  | r :: rs => specCheckedRow r ++ specCheckedRows rs

end

mutual

theorem getCheckedRow_spec (struc : TreeNode) :
    ∀ r : Row, (∀ i ∈ specCheckedRow r,
        ¬(struc.get_children i = none) ∨ struc.iidPath = i) →
      (getCheckedRow struc r).map TreeNode.iidPath = specCheckedRow r
  | .mk i t v tg o cs => by
    intro hsucc
    by_cases hck : stateChecked tg = true
    · simp only [getCheckedRow, specCheckedRow, hck, if_true,
        List.map_cons, List.map_nil]
      have hi : i ∈ specCheckedRow (Row.mk i t v tg o cs) := by
        simp [specCheckedRow, hck]
      rw [from_treeitem_iidPath o tg (some true) (hsucc i hi)]
    · have hckf : stateChecked tg = false := by
        cases hc2 : stateChecked tg
        · rfl
        · exact absurd hc2 hck
      by_cases hcc : TagsConfig.c_ccstate_sector ∈ tg
      · simp only [getCheckedRow, specCheckedRow, hckf,
          Bool.false_eq_true, if_false, hcc, if_true]
        refine getCheckedRows_spec struc cs ?_
        intro j hj
        refine hsucc j ?_
        simp [specCheckedRow, hckf, hcc, hj]
      · simp only [getCheckedRow, specCheckedRow, hckf,
          Bool.false_eq_true, if_false, hcc, List.map_nil]

theorem getCheckedRows_spec (struc : TreeNode) :
    ∀ w : Forest, (∀ i ∈ specCheckedRows w,
        ¬(struc.get_children i = none) ∨ struc.iidPath = i) →
      (getCheckedRows struc w).map TreeNode.iidPath = specCheckedRows w
  | [] => fun _ => rfl
  | r :: rs => by
    intro hsucc
    simp only [getCheckedRows, specCheckedRows, List.map_append]
    rw [getCheckedRow_spec struc r
        (fun i hi => hsucc i
          (by simp only [specCheckedRows, List.mem_append]
              exact Or.inl hi)),
      getCheckedRows_spec struc rs
        (fun i hi => hsucc i
          (by simp only [specCheckedRows, List.mem_append]
              exact Or.inr hi))]

end

/-- The spec's scenario tree: leaves `A`, `B` (checked), and the sector
`C` over `D`, `E`. -/
def demoC2 : SelectTree :=
  loadRestructure [TreeNode.plain "A" "" [],
    TreeNode.plainChk "B" "" (some true) [],
    TreeNode.plain "C" "" [TreeNode.plain "D" "" [],
      TreeNode.plain "E" "" []]]

/-- The scenario state after `toggle_check(True, "C")`. -/
def demoC2on : SelectTree := (demoC2.toggle_check (some true) "C").1

/-- The scenario state after then running `toggle_check(False, "C.D")`. -/
def demoC2off : SelectTree := (demoC2on.toggle_check (some false) "C.D").1

/-- **C2** (amended).  `get_checked` reports exactly the rows the
spec's traversal selects (stop at a checked row, descend through a
mixed sector, skip otherwise), identified by their iid paths, whenever
the structure lookup behind each reported row succeeds.  In the spec's
scenario the initial result is `[B]` and, after toggling `D` off, `C`
is mixed and the result is `[B, E]`; but after toggling `C` on the
result is `[B, C]` — the checked leaf `B` stays reported — not `[C]`
as the spec says (see `get_checked_scenario_counterexample`). -/
theorem get_checked_traversal (struc : TreeNode) (w : Forest)
    (hsucc : ∀ i ∈ specCheckedRows w,
      ¬(struc.get_children i = none) ∨ struc.iidPath = i) :
    (getCheckedRows struc w).map TreeNode.iidPath = specCheckedRows w ∧
    (demoC2.get_checked).map TreeNode.iidPath = ["B"] ∧
    (demoC2on.get_checked).map TreeNode.iidPath = ["B", "C"] ∧
    (TagsConfig.c_ccstate_sector ∈ tagsAt demoC2off.rows "C" ∧
      (demoC2off.get_checked).map TreeNode.iidPath = ["B", "C.E"]) :=
  ⟨getCheckedRows_spec struc w hsucc, by decide, by decide, by decide⟩

theorem get_checked_traversal_witness :
    (∀ i ∈ specCheckedRows demoC2on.rows,
      ¬(demoC2on.struct.get_children i = none) ∨
        demoC2on.struct.iidPath = i) ∧
    (getCheckedRows demoC2on.struct demoC2on.rows).map TreeNode.iidPath
      = specCheckedRows demoC2on.rows :=
  ⟨by decide,
   (get_checked_traversal demoC2on.struct demoC2on.rows (by decide)).1⟩

/-- **C2**, counterexample to the original scenario: after toggling
`C` to checked, `get_checked` returns the nodes on `B` and `C` — not
`[C]` alone as the spec claims. -/
theorem get_checked_scenario_counterexample :
    (demoC2on.get_checked).map TreeNode.iidPath = ["B", "C"] ∧
    ¬((demoC2on.get_checked).map TreeNode.iidPath = ["C"]) := by decide

end WidgetsTk